import Mathlib

/-!
# Verification of the study-schedule allocation engine (`src/app.py`)

Shallow embedding of `generate_schedule` (and its helpers) from `app.py`
over exact rationals, together with proofs and refutations of the frozen
claims about the engine.

Modelling conventions:
* Python floats are modelled by `ℚ`.  Every concrete counterexample below was
  additionally checked against IEEE-double semantics of the source: on those
  inputs the float run and the rational run produce identical traces.
* Python's built-in `round` (banker's rounding, ties to even) is modelled by
  `pyRound`.
* Python `dict` (insertion-ordered, last write wins per key) is modelled by an
  association list with in-place update (`dictSet`).
* Calendar dates are modelled as day numbers (`Nat`) in a calendar whose day 0
  is a Monday, so `d % 7 < 5` is "`d` is a weekday" exactly as
  `date.weekday() < 5` in the source.  ISO date strings compare
  lexicographically exactly as the underlying dates compare numerically, so
  the pandas `groupby` sort key is modelled by the numeric date.
* The `while` loop of the day allocator is modelled with explicit fuel; the
  engine is run with enough fuel, and we prove the fuel bound is never hit.
* Exceptions (`ValueError`, `ZeroDivisionError`) are modelled by
  `Except String`.
-/

/-- A parsed topic record: `{"name":..., "difficulty":..., "priority":...}`. -/
structure Topic where
  name : String
  difficulty : Nat
  priority : Bool
deriving Repr, DecidableEq

/-- One schedule row `{"Date":..., "Topic":..., "Hours":...}`. -/
structure Row where
  date : Nat
  topic : String
  hours : ℚ
deriving Repr, DecidableEq

instance : Inhabited Row := ⟨⟨0, "", 0⟩⟩

/-- Python's built-in `round`: nearest integer, ties to the even integer. -/
def pyRound (q : ℚ) : ℤ :=
  if q - ⌊q⌋ = 1/2 then (if Even ⌊q⌋ then ⌊q⌋ else ⌊q⌋ + 1) else round q

/-- `round(x * 2) / 2.0` from the source. -/
def roundTo2 (x : ℚ) : ℚ := (pyRound (x * 2) : ℚ) / 2

/-- `round(x * 4) / 4.0` from the source. -/
def roundTo4 (x : ℚ) : ℚ := (pyRound (x * 4) : ℚ) / 4

/-- `x` is an exact integer multiple of a quarter hour. -/
def IsQuarter (x : ℚ) : Prop := ∃ k : ℤ, x = (k : ℚ) / 4

/-! ## Python `dict` model: insertion-ordered association list -/

/-- Association list standing for a Python `dict` from topic name to hours. -/
abbrev PyDict := List (String × ℚ)

/-- `m[k] = v`: replace in place if the key is present, else append. -/
def dictSet : PyDict → String → ℚ → PyDict
  | [], k, v => [(k, v)]
  | (k', v') :: rest, k, v =>
    if k' = k then (k', v) :: rest else (k', v') :: dictSet rest k v

/-- `m[k]` (first match; keys are unique in a real dict). -/
def dictGet : PyDict → String → Option ℚ
  | [], _ => none
  | (k', v') :: rest, k => if k' = k then some v' else dictGet rest k

/-- `list(m.keys())`. -/
def dictKeys (m : PyDict) : List String := m.map Prod.fst

/-- `max(m.items(), key=lambda x: x[1])`: first maximal item in iteration
order (Python's `max` keeps the earliest of equal candidates). -/
def pyMaxSnd : PyDict → Option (String × ℚ)
  | [] => none
  | x :: xs => some (xs.foldl (fun b y => if y.2 > b.2 then y else b) x)

/-! ## The engine (`generate_schedule` from `app.py`) -/

/-- `w = 1.0 * difficulty; if priority: w *= 2.0` (lines 82-86). -/
def weight (t : Topic) : ℚ := 1 * (t.difficulty : ℚ) * (if t.priority then 2 else 1)

/-- `sum_w = sum(weights)` (line 87). -/
def weightSum (topics : List Topic) : ℚ := (topics.map weight).sum

/-- Lines 93-97: proportional share, rounded to 0.5 h, floored at 0.5 h
(the local `allocated` of the source is inlined). -/
def entitlement (w sumW total : ℚ) : ℚ :=
  if roundTo2 (w / sumW * total) < 1/2 then 1/2 else roundTo2 (w / sumW * total)

/-- The initial `remaining_hours` dict (lines 91-98). -/
def initRemaining (topics : List Topic) (sumW total : ℚ) : PyDict :=
  topics.foldl (fun m t => dictSet m t.name (entitlement (weight t) sumW total)) []

/-- Lines 70-75: calendar days from `today` up to (excluding) `examDate`,
weekends filtered out unless included.  Day numbers count from a Monday. -/
def buildStudyDays (today examDate : Nat) (includeWeekends : Bool) : List Nat :=
  ((List.range (examDate - today)).map (today + ·)).filter
    (fun d => includeWeekends || d % 7 < 5)

/-- The loop guard of line 105:
`hours_left >= 0.25 and any(h > 0.249 for h in remaining_hours.values())`. -/
def innerCond (rem : PyDict) (hl : ℚ) : Prop :=
  1/4 ≤ hl ∧ ∃ p ∈ rem, (249/1000 : ℚ) < p.2

instance (rem : PyDict) (hl : ℚ) : Decidable (innerCond rem hl) := by
  unfold innerCond; infer_instance

/-- `alloc = round(min(remaining_hours[topic], hours_left) * 4) / 4.0`
(lines 110-112). -/
def allocAmount (remT hl : ℚ) : ℚ := roundTo4 (min remT hl)

/-- Result of one pass through the body of the `while` loop: `stop` if a
`break` was hit, `go` if control returns to the loop guard. -/
inductive StepResult where
  | stop (rem : PyDict) (hl : ℚ) (rows : List Row)
  | go (rem : PyDict) (hl : ℚ) (rows : List Row)

/-- One iteration of the loop body (lines 106-124), entered with the guard
already known to hold. -/
def dayStep (day : Nat) (rem : PyDict) (hl : ℚ) (rows : List Row) : StepResult :=
  match pyMaxSnd rem with
  | none => .stop rem hl rows
  | some (topic, remT) =>
    if remT < 1/4 then .stop rem hl rows
    else
      let alloc := allocAmount remT hl
      if alloc ≤ 0 then .stop rem hl rows
      else
        let rem' := dictSet rem topic (roundTo4 (remT - alloc))
        let hl' := roundTo4 (hl - alloc)
        let rows' := rows ++ [⟨day, topic, alloc⟩]
        if hl' < 1/4 then .stop rem' hl' rows'
        else .go rem' hl' rows'

/-- The `while` loop of lines 105-124, with explicit fuel (`none` = fuel ran
out with the guard still true; proved unreachable for the fuel the engine
uses). -/
def dayLoop (day : Nat) : Nat → PyDict → ℚ → List Row →
    Option (PyDict × ℚ × List Row)
  | fuel, rem, hl, rows =>
    if innerCond rem hl then
      match fuel with
      | 0 => none
      | fuel' + 1 =>
        match dayStep day rem hl rows with
        | .stop rem' hl' rows' => some (rem', hl', rows')
        | .go rem' hl' rows' => dayLoop day fuel' rem' hl' rows'
    else some (rem, hl, rows)

/-- Fuel large enough for one day: more than `8 * daily_hours` iterations can
never happen, since each one costs at least 1/8 h of `hours_left`. -/
def dayFuel (daily : ℚ) : Nat := (⌈8 * daily⌉).toNat + 1

/-- The per-day loop of lines 102-124 over the whole study window, returning
the final `remaining_hours` and all emitted `schedule_rows`. -/
def allocDays (fuel : Nat) (daily : ℚ) : List Nat → PyDict →
    Option (PyDict × List Row)
  | [], rem => some (rem, [])
  | day :: ds, rem =>
    match dayLoop day fuel rem daily [] with
    | none => none
    | some (rem', _, dayRows) =>
      match allocDays fuel daily ds rem' with
      | none => none
      | some (remF, rest) => some (remF, dayRows ++ rest)

/-- The `groupby(["Date","Topic"]).sum()` key of a row. -/
def rowKey (r : Row) : Nat × String := (r.date, r.topic)

/-- pandas sorts group keys ascending: `(Date, Topic)` lexicographically. -/
def keyLE (a b : Nat × String) : Prop :=
  a.1 < b.1 ∨ (a.1 = b.1 ∧ (a.2 < b.2 ∨ a.2 = b.2))

instance (a b : Nat × String) : Decidable (keyLE a b) := by
  unfold keyLE; infer_instance

def insertKey (k : Nat × String) : List (Nat × String) → List (Nat × String)
  | [] => [k]
  | x :: xs => if keyLE k x then k :: x :: xs else x :: insertKey k xs

def sortKeys : List (Nat × String) → List (Nat × String)
  | [] => []
  | k :: ks => insertKey k (sortKeys ks)

/-- Line 138: `df.groupby(["Date", "Topic"], as_index=False).sum()` — one row
per distinct `(Date, Topic)` key, keys sorted ascending, hours summed. -/
def aggregate (rows : List Row) : List Row :=
  (sortKeys ((rows.map rowKey).dedup)).map fun k =>
    ⟨k.1, k.2, ((rows.filter fun r => rowKey r = k).map Row.hours).sum⟩

/-- Lines 128-134: round-robin fallback rows, one topic per day. -/
def fallbackRowsOf (days : List Nat) (names : List String) (daily : ℚ) :
    List Row :=
  days.enum.map fun p => ⟨p.2, names.getD (p.1 % names.length) "", daily⟩

/-- What `generate_schedule` returns: the aggregated dataframe, the raw
pre-aggregation `schedule_rows` (empty on the fallback path, as in the
source), the final `remaining_hours`, and `total_available_hours`. -/
structure SchedOut where
  df : List Row
  scheduleRows : List Row
  remainingHours : PyDict
  totalAvailableHours : ℚ
deriving Repr, DecidableEq

/-- `generate_schedule` (lines 60-139). -/
def generate_schedule (topics : List Topic) (examDate : Nat) (dailyHours : ℚ)
    (includeWeekends : Bool) (today : Nat) : Except String SchedOut :=
  if examDate ≤ today then
    .error "Exam date must be in the future."
  else
    let studyDays := buildStudyDays today examDate includeWeekends
    if studyDays.length = 0 then
      .error "No study days available (check exam date / weekend option)."
    else
      let sumW := weightSum topics
      let totalAvailableHours := (studyDays.length : ℚ) * dailyHours
      if topics ≠ [] ∧ sumW = 0 then
        .error "ZeroDivisionError: float division by zero"
      else
        let remaining0 := initRemaining topics sumW totalAvailableHours
        match allocDays (dayFuel dailyHours) dailyHours studyDays remaining0 with
        | none => .error "model: loop fuel exhausted"
        | some (remainingF, schedRows) =>
          if schedRows = [] then
            let topicNames := dictKeys remainingF
            if topicNames = [] then
              .error "ZeroDivisionError: integer division or modulo by zero"
            else
              .ok ⟨aggregate (fallbackRowsOf studyDays topicNames dailyHours), [],
                   remainingF, totalAvailableHours⟩
          else
            .ok ⟨aggregate schedRows, schedRows, remainingF, totalAvailableHours⟩

/-- Modelled from the spec (for claim C1 only): "value × 2, round to nearest
integer **half-up**, divide by 2" — `round` here is Mathlib's half-up
rounding, exactly the spec's words, to be compared with the source's
`roundTo2`. -/
def specRoundHalfUpTo2 (x : ℚ) : ℚ := (round (x * 2) : ℚ) / 2

/-- Modelled from the spec (for claim C7 only): "rounded down to the nearest
0.25-hour increment". -/
def specFloorTo4 (x : ℚ) : ℚ := (⌊x * 4⌋ : ℚ) / 4

/-- The `remaining`-component of a loop-body result. -/
def StepResult.remaining : StepResult → PyDict
  | .stop rem _ _ => rem
  | .go rem _ _ => rem

/-- The `hours_left`-component of a loop-body result. -/
def StepResult.hoursLeft : StepResult → ℚ
  | .stop _ hl _ => hl
  | .go _ hl _ => hl

/-- The accumulated-rows component of a loop-body result. -/
def StepResult.rowsAcc : StepResult → List Row
  | .stop _ _ rows => rows
  | .go _ _ rows => rows

/-- How one allocation run may change the `remaining_hours` dict: every entry
of the later dict existed before, never larger, and (unless untouched)
nonnegative. -/
def RemEvolve (m₀ m₁ : PyDict) : Prop :=
  ∀ name v₁, dictGet m₁ name = some v₁ →
    ∃ v₀, dictGet m₀ name = some v₀ ∧ v₁ ≤ v₀ ∧ (v₁ = v₀ ∨ 0 ≤ v₁)

/-- The total hours a row list assigns on one date (the per-day sum the
daily-capacity bound speaks about). -/
def dateSum (rows : List Row) (d : Nat) : ℚ :=
  ((rows.filter fun r => r.date = d).map Row.hours).sum

/-- The total hours of a row list. -/
def rowsSum (rows : List Row) : ℚ := (rows.map Row.hours).sum

/-! ## Theorems -/

/-! ## Basic facts about `pyRound` -/

theorem pyRound_intCast (n : ℤ) : pyRound (n : ℚ) = n := by
  unfold pyRound
  rw [Int.floor_intCast]
  have h : (n : ℚ) - n = 0 := by ring
  rw [h]
  norm_num

theorem pyRound_le (q : ℚ) : (pyRound q : ℚ) ≤ q + 1/2 := by
  unfold pyRound
  split
  · rename_i h
    have hq : q = (⌊q⌋ : ℚ) + 1/2 := by linarith [h]
    split
    · linarith
    · push_cast; linarith
  · have := abs_sub_round q
    have h2 : |q - round q| ≤ 1/2 := this
    have h3 := abs_le.mp h2
    linarith [h3.1]

theorem le_pyRound (q : ℚ) : q - 1/2 ≤ (pyRound q : ℚ) := by
  unfold pyRound
  split
  · rename_i h
    have hq : q = (⌊q⌋ : ℚ) + 1/2 := by linarith [h]
    split
    · linarith
    · push_cast; linarith
  · have h2 : |q - round q| ≤ 1/2 := abs_sub_round q
    have h3 := abs_le.mp h2
    linarith [h3.2]

theorem pyRound_nonneg {q : ℚ} (h : -(1/2) ≤ q) : 0 ≤ pyRound q := by
  unfold pyRound
  split
  · rename_i htie
    have hfl : (-1 : ℤ) ≤ ⌊q⌋ := by
      have : (⌊q⌋ : ℚ) = q - 1/2 := by linarith [htie]
      have h1 : ((-1 : ℤ) : ℚ) ≤ (⌊q⌋ : ℚ) := by rw [this]; push_cast; linarith
      exact_mod_cast h1
    rcases lt_or_ge ⌊q⌋ 0 with hneg | hpos
    · have : ⌊q⌋ = -1 := le_antisymm (by omega) hfl
      rw [this]
      norm_num
    · split <;> omega
  · have : (0 : ℚ) ≤ q + 1/2 := by linarith
    rw [round_eq]
    positivity

theorem pyRound_mono : Monotone fun q : ℚ => pyRound q := by
  intro x y hxy
  simp only
  rcases lt_or_ge ⌊x⌋ ⌊y⌋ with hf | hf
  · -- pyRound x ≤ ⌊x⌋ + 1 ≤ ⌊y⌋ ≤ pyRound y
    have hx1 : pyRound x ≤ ⌊x⌋ + 1 := by
      unfold pyRound
      split
      · split <;> omega
      · rw [round_eq]
        have h5 : x + 1/2 < ((⌊x⌋ + 2 : ℤ) : ℚ) := by
          push_cast; linarith [Int.lt_floor_add_one x]
        have h6 : ⌊x + 1/2⌋ < ⌊x⌋ + 2 := Int.floor_lt.mpr h5
        omega
    have hy1 : ⌊y⌋ ≤ pyRound y := by
      unfold pyRound
      split
      · split <;> omega
      · rw [round_eq]
        have : (⌊y⌋ : ℚ) ≤ y + 1/2 := by linarith [Int.floor_le y]
        exact Int.le_floor.mpr this
    omega
  · -- same floor: compare fractional parts
    have hfe : ⌊y⌋ ≤ ⌊x⌋ := hf
    have hfx : ⌊x⌋ ≤ ⌊y⌋ := Int.floor_le_floor hxy
    have heq : ⌊x⌋ = ⌊y⌋ := le_antisymm hfx hfe
    unfold pyRound
    by_cases htx : x - ⌊x⌋ = 1/2 <;> by_cases hty : y - ⌊y⌋ = 1/2
    · -- both ties: x = y
      have : x = y := by
        have := heq
        have hx2 : x = (⌊x⌋ : ℚ) + 1/2 := by linarith
        have hy2 : y = (⌊y⌋ : ℚ) + 1/2 := by linarith
        rw [hx2, hy2, this]
      subst this
      simp
    · -- x tie, y not: frac y > 1/2, round y = ⌊y⌋ + 1
      simp only [htx, hty, if_true, if_false]
      have hfy : 1/2 < y - ⌊y⌋ := by
        have h1 : x - ⌊x⌋ ≤ y - ⌊y⌋ := by rw [heq] at *; linarith
        rcases lt_or_eq_of_le h1 with h | h
        · linarith [htx]
        · exact absurd (by rw [← h, htx]) hty
      have hry : round y = ⌊y⌋ + 1 := by
        rw [round_eq]
        have h1 : ((⌊y⌋ + 1 : ℤ) : ℚ) ≤ y + 1/2 := by push_cast; linarith
        have h2 : y + 1/2 < ((⌊y⌋ + 2 : ℤ) : ℚ) := by
          push_cast; linarith [Int.lt_floor_add_one y]
        have h3 := Int.le_floor.mpr h1
        have h4 := Int.floor_lt.mpr h2
        omega
      rw [hry]
      split <;> omega
    · -- y tie, x not: frac x < 1/2, round x = ⌊x⌋
      simp only [htx, hty, if_false, if_true]
      have hfx2 : x - ⌊x⌋ < 1/2 := by
        have h1 : x - ⌊x⌋ ≤ y - ⌊y⌋ := by rw [heq] at *; linarith
        rcases lt_or_eq_of_le (h1.trans_eq hty) with h | h
        · exact h
        · exact absurd h htx
      have hrx : round x = ⌊x⌋ := by
        rw [round_eq]
        have h1 : (⌊x⌋ : ℚ) ≤ x + 1/2 := by linarith [Int.floor_le x]
        have h2 : x + 1/2 < ((⌊x⌋ + 1 : ℤ) : ℚ) := by push_cast; linarith
        have h3 := Int.le_floor.mpr h1
        have h4 := Int.floor_lt.mpr h2
        omega
      rw [hrx]
      split <;> omega
    · -- neither tie: round is monotone
      simp only [htx, hty, if_false]
      rw [round_eq, round_eq]
      exact Int.floor_le_floor (by linarith)

/-! ## Corollaries for the quarter-hour grid -/

theorem roundTo4_le (x : ℚ) : roundTo4 x ≤ x + 1/8 := by
  unfold roundTo4
  have := pyRound_le (x * 4)
  linarith

theorem le_roundTo4 (x : ℚ) : x - 1/8 ≤ roundTo4 x := by
  unfold roundTo4
  have := le_pyRound (x * 4)
  linarith

theorem roundTo4_nonneg {x : ℚ} (h : -(1/8) ≤ x) : 0 ≤ roundTo4 x := by
  unfold roundTo4
  have h4 : -(1/2) ≤ x * 4 := by linarith
  have := pyRound_nonneg h4
  positivity

theorem roundTo4_mono {x y : ℚ} (h : x ≤ y) : roundTo4 x ≤ roundTo4 y := by
  unfold roundTo4
  have h4 : x * 4 ≤ y * 4 := by linarith
  have := pyRound_mono h4
  have : (pyRound (x * 4) : ℚ) ≤ (pyRound (y * 4) : ℚ) := by exact_mod_cast this
  linarith

theorem roundTo4_isQuarter (x : ℚ) : IsQuarter (roundTo4 x) := ⟨pyRound (x * 4), rfl⟩

theorem roundTo4_eq_of_isQuarter {x : ℚ} (h : IsQuarter x) : roundTo4 x = x := by
  obtain ⟨k, rfl⟩ := h
  unfold roundTo4
  have : ((k : ℚ) / 4) * 4 = (k : ℚ) := by ring
  rw [this, pyRound_intCast]

theorem isQuarter_sub {x y : ℚ} (hx : IsQuarter x) (hy : IsQuarter y) :
    IsQuarter (x - y) := by
  obtain ⟨k, rfl⟩ := hx
  obtain ⟨m, rfl⟩ := hy
  exact ⟨k - m, by push_cast; ring⟩

theorem isQuarter_add {x y : ℚ} (hx : IsQuarter x) (hy : IsQuarter y) :
    IsQuarter (x + y) := by
  obtain ⟨k, rfl⟩ := hx
  obtain ⟨m, rfl⟩ := hy
  exact ⟨k + m, by push_cast; ring⟩

theorem isQuarter_min {x y : ℚ} (hx : IsQuarter x) (hy : IsQuarter y) :
    IsQuarter (min x y) := by
  rcases min_choice x y with h | h <;> rw [h] <;> assumption

/-- A positive quarter-multiple is at least a quarter. -/
theorem isQuarter_pos_ge {x : ℚ} (hq : IsQuarter x) (hp : 0 < x) : 1/4 ≤ x := by
  obtain ⟨k, rfl⟩ := hq
  have hk : 0 < k := by
    by_contra hneg
    push_neg at hneg
    have : (k : ℚ) ≤ 0 := by exact_mod_cast hneg
    have : (k : ℚ) / 4 ≤ 0 := by linarith
    linarith
  have : (1 : ℚ) ≤ (k : ℚ) := by exact_mod_cast hk
  linarith

theorem dictGet_dictSet_self (m : PyDict) (k : String) (v : ℚ) :
    dictGet (dictSet m k v) k = some v := by
  induction m with
  | nil => simp [dictSet, dictGet]
  | cons p rest ih =>
    by_cases h : p.1 = k
    · simp [dictSet, dictGet, h]
    · simp [dictSet, dictGet, h, ih]

theorem dictGet_dictSet_ne (m : PyDict) {k k' : String} (v : ℚ) (h : k' ≠ k) :
    dictGet (dictSet m k v) k' = dictGet m k' := by
  induction m with
  | nil =>
    simp only [dictSet, dictGet]
    rw [if_neg (fun he => h he.symm)]
  | cons p rest ih =>
    rcases p with ⟨pk, pv⟩
    by_cases hp : pk = k
    · simp only [dictSet, if_pos hp, dictGet]
      have hp' : pk ≠ k' := by rw [hp]; exact fun he => h he.symm
      rw [if_neg hp', if_neg hp']
    · simp only [dictSet, if_neg hp, dictGet]
      by_cases hp' : pk = k'
      · rw [if_pos hp', if_pos hp']
      · rw [if_neg hp', if_neg hp']
        exact ih

theorem dictKeys_dictSet_of_mem {m : PyDict} {k : String} (h : k ∈ dictKeys m)
    (v : ℚ) : dictKeys (dictSet m k v) = dictKeys m := by
  induction m with
  | nil => simp [dictKeys] at h
  | cons p rest ih =>
    by_cases hp : p.1 = k
    · simp [dictSet, dictKeys, hp]
    · simp only [dictKeys, List.map_cons, List.mem_cons] at h
      rcases h with h | h
      · exact absurd h.symm hp
      · simp [dictSet, dictKeys, hp]
        exact ih h

theorem dictKeys_dictSet_of_not_mem {m : PyDict} {k : String}
    (h : k ∉ dictKeys m) (v : ℚ) :
    dictKeys (dictSet m k v) = dictKeys m ++ [k] := by
  induction m with
  | nil => simp [dictSet, dictKeys]
  | cons p rest ih =>
    rcases p with ⟨pk, pv⟩
    simp only [dictKeys, List.map_cons, List.mem_cons] at h
    push_neg at h
    have hne : pk ≠ k := fun he => h.1 he.symm
    simp only [dictSet, if_neg hne, dictKeys, List.map_cons, List.cons_append,
      List.cons.injEq, true_and]
    exact ih h.2

/-- Values present in `dictSet m k v` come from `m` or are `v`. -/
theorem mem_dictSet_val {m : PyDict} {k : String} {v : ℚ} {p : String × ℚ}
    (h : p ∈ dictSet m k v) : p ∈ m ∨ p.2 = v := by
  induction m with
  | nil => simp [dictSet] at h; simp [h]
  | cons q rest ih =>
    by_cases hq : q.1 = k
    · simp [dictSet, hq] at h
      rcases h with h | h
      · right; rw [h]
      · left; simp [h]
    · simp [dictSet, hq] at h
      rcases h with h | h
      · left; simp [h]
      · rcases ih h with h' | h'
        · left; simp [h']
        · right; exact h'

theorem pyMaxSnd_mem {m : PyDict} {p : String × ℚ} (h : pyMaxSnd m = some p) :
    p ∈ m := by
  match m with
  | [] => simp [pyMaxSnd] at h
  | x :: xs =>
    simp only [pyMaxSnd, Option.some.injEq] at h
    subst h
    -- the foldl result is always drawn from x :: xs
    suffices h : ∀ (l : List (String × ℚ)) (b : String × ℚ) (acc : List (String × ℚ)),
        b ∈ acc → (∀ y ∈ l, y ∈ acc) →
        l.foldl (fun b y => if y.2 > b.2 then y else b) b ∈ acc by
      exact h xs x (x :: xs) (by simp) (by intro y hy; simp [hy])
    intro l
    induction l with
    | nil => intro b acc hb _; simpa using hb
    | cons z zs ih =>
      intro b acc hb hl
      simp only [List.foldl_cons]
      by_cases hz : z.2 > b.2
      · rw [if_pos hz]
        exact ih z acc (hl z (by simp)) (fun y hy => hl y (by simp [hy]))
      · rw [if_neg hz]
        exact ih b acc hb (fun y hy => hl y (by simp [hy]))

theorem pyMaxSnd_ge {m : PyDict} {p : String × ℚ} (h : pyMaxSnd m = some p) :
    ∀ q ∈ m, q.2 ≤ p.2 := by
  match m with
  | [] => simp [pyMaxSnd] at h
  | x :: xs =>
    simp only [pyMaxSnd, Option.some.injEq] at h
    subst h
    suffices hgen : ∀ (l : List (String × ℚ)) (b : String × ℚ),
        b.2 ≤ (l.foldl (fun b y => if y.2 > b.2 then y else b) b).2 ∧
        ∀ q ∈ l, q.2 ≤ (l.foldl (fun b y => if y.2 > b.2 then y else b) b).2 by
      intro q hq
      rcases List.mem_cons.mp hq with rfl | hq'
      · exact (hgen xs q).1
      · exact (hgen xs x).2 q hq'
    intro l
    induction l with
    | nil => intro b; simp
    | cons z zs ih =>
      intro b
      simp only [List.foldl_cons]
      by_cases hz : z.2 > b.2
      · simp only [if_pos hz]
        refine ⟨le_of_lt (lt_of_lt_of_le hz (ih z).1), ?_⟩
        intro q hq
        rcases List.mem_cons.mp hq with rfl | hq'
        · exact (ih q).1
        · exact (ih z).2 q hq'
      · simp only [if_neg hz]
        push_neg at hz
        refine ⟨(ih b).1, ?_⟩
        intro q hq
        rcases List.mem_cons.mp hq with rfl | hq'
        · exact le_trans hz (ih b).1
        · exact (ih b).2 q hq'

theorem pyMaxSnd_isSome {m : PyDict} (h : m ≠ []) : (pyMaxSnd m).isSome := by
  match m with
  | [] => exact absurd rfl h
  | x :: xs => simp [pyMaxSnd]

/-! ## Evaluating `pyRound` on concrete values -/

/-- Evaluate `pyRound` away from a tie. -/
theorem pyRound_eq_of_bounds {q : ℚ} {n : ℤ} (h1 : (n : ℚ) - 1/2 < q)
    (h2 : q < (n : ℚ) + 1/2) : pyRound q = n := by
  have hfl : ¬ (q - ⌊q⌋ = 1/2) := by
    intro ht
    have hq : q = (⌊q⌋ : ℚ) + 1/2 := by linarith
    have h3' : n - 1 < ⌊q⌋ := by
      have : (n : ℚ) - 1 < (⌊q⌋ : ℚ) := by linarith
      exact_mod_cast this
    have h4' : ⌊q⌋ < n := by
      have : (⌊q⌋ : ℚ) < n := by linarith
      exact_mod_cast this
    omega
  unfold pyRound
  rw [if_neg hfl, round_eq]
  have hl := Int.le_floor.mpr (by linarith : (n : ℚ) ≤ q + 1/2)
  have hr := Int.floor_lt.mpr
    (by push_cast; linarith : q + 1/2 < ((n + 1 : ℤ) : ℚ))
  omega

/-- Evaluate `pyRound` at a tie with even floor. -/
theorem pyRound_tie_even {n : ℤ} (h : Even n) : pyRound ((n : ℚ) + 1/2) = n := by
  have hfl : ⌊(n : ℚ) + 1/2⌋ = n := by
    rw [add_comm, Int.floor_add_int]
    norm_num
  unfold pyRound
  rw [hfl, if_pos (by ring), if_pos h]

/-- Evaluate `pyRound` at a tie with odd floor. -/
theorem pyRound_tie_odd {n : ℤ} (h : ¬ Even n) :
    pyRound ((n : ℚ) + 1/2) = n + 1 := by
  have hfl : ⌊(n : ℚ) + 1/2⌋ = n := by
    rw [add_comm, Int.floor_add_int]
    norm_num
  unfold pyRound
  rw [hfl, if_pos (by ring), if_neg h]

/-! ## The initial DemandMap -/

theorem roundTo2_mono {x y : ℚ} (h : x ≤ y) : roundTo2 x ≤ roundTo2 y := by
  unfold roundTo2
  have h2 : x * 2 ≤ y * 2 := by linarith
  have := pyRound_mono h2
  have : (pyRound (x * 2) : ℚ) ≤ (pyRound (y * 2) : ℚ) := by exact_mod_cast this
  linarith

theorem entitlement_ge_half (w sumW total : ℚ) :
    1/2 ≤ entitlement w sumW total := by
  unfold entitlement
  split
  · exact le_refl _
  · rename_i h
    exact not_lt.mp h

theorem entitlement_eq_max (w sumW total : ℚ) :
    entitlement w sumW total = max (1/2) (roundTo2 (w / sumW * total)) := by
  unfold entitlement
  split
  · exact (max_eq_left (le_of_lt (by assumption))).symm
  · exact (max_eq_right (not_lt.mp (by assumption))).symm

theorem dictGet_foldl_not_mem (topics : List Topic) (sumW total : ℚ)
    (m : PyDict) (k : String) (hk : ∀ t ∈ topics, t.name ≠ k) :
    dictGet (topics.foldl
        (fun m t => dictSet m t.name (entitlement (weight t) sumW total)) m) k
      = dictGet m k := by
  induction topics generalizing m with
  | nil => rfl
  | cons u rest ih =>
    simp only [List.foldl_cons]
    rw [ih _ (fun t ht => hk t (List.mem_cons_of_mem u ht))]
    exact dictGet_dictSet_ne m _ (fun he => hk u (List.mem_cons_self u rest) he.symm)

/-- With pairwise-distinct names, the initial `remaining_hours` entry of each
topic is its own entitlement (accumulator-generalized form). -/
theorem dictGet_initRemaining_gen (sumW total : ℚ) :
    ∀ (topics : List Topic) (m : PyDict) (t : Topic),
      (topics.map Topic.name).Nodup → t ∈ topics →
      dictGet (topics.foldl
          (fun m t => dictSet m t.name (entitlement (weight t) sumW total)) m)
        t.name = some (entitlement (weight t) sumW total) := by
  intro topics
  induction topics with
  | nil =>
    intro m t _ ht
    exact absurd ht (List.not_mem_nil t)
  | cons u rest ih =>
    intro m t hnd ht
    simp only [List.map_cons, List.nodup_cons] at hnd
    simp only [List.foldl_cons]
    rcases List.mem_cons.mp ht with rfl | ht' 
    · rw [dictGet_foldl_not_mem rest sumW total _ t.name
        (fun t' ht'' he => hnd.1 (he ▸ List.mem_map_of_mem Topic.name ht''))]
      exact dictGet_dictSet_self m t.name _
    · exact ih _ t hnd.2 ht'

theorem dictGet_initRemaining (topics : List Topic) (sumW total : ℚ)
    (hnd : (topics.map Topic.name).Nodup) (t : Topic) (ht : t ∈ topics) :
    dictGet (initRemaining topics sumW total) t.name =
      some (entitlement (weight t) sumW total) :=
  dictGet_initRemaining_gen sumW total topics [] t hnd ht

/-! ## C1: entitlement rounding -/

/-- Claim C1 (corrected).  The entitlement rounding of lines 93-97 is Python's
banker's rounding (ties to the **even** integer at the ×2 scale), not
round-half-up, followed by the 0.5-hour floor: each stored initial
`remaining_hours` entry equals `max 0.5 (roundTo2 raw)` where `raw` is the
topic's proportional share; a value exactly halfway between two 0.5-multiples
can round *down* (see `C1_counterexample`). -/
theorem C1_entitlement_round_half_even (topics : List Topic) (sumW total : ℚ)
    (i : Nat) (hi : i < topics.length)
    (hnd : (topics.map Topic.name).Nodup) :
    dictGet (initRemaining topics sumW total) (topics.get ⟨i, hi⟩).name =
      some (max (1/2)
        (roundTo2 (weight (topics.get ⟨i, hi⟩) / sumW * total))) := by
  rw [dictGet_initRemaining topics sumW total hnd _ (topics.get_mem i hi)]
  rw [entitlement_eq_max]

/-- Witness for `C1_entitlement_round_half_even` at a concrete input. -/
theorem C1_entitlement_round_half_even_witness :
    dictGet (initRemaining [⟨"A", 1, false⟩, ⟨"B", 3, false⟩]
        (weightSum [⟨"A", 1, false⟩, ⟨"B", 3, false⟩]) 5) "A" =
      some (max (1/2)
        (roundTo2 (weight ⟨"A", 1, false⟩ /
          weightSum [⟨"A", 1, false⟩, ⟨"B", 3, false⟩] * 5))) :=
  C1_entitlement_round_half_even [⟨"A", 1, false⟩, ⟨"B", 3, false⟩]
    (weightSum [⟨"A", 1, false⟩, ⟨"B", 3, false⟩]) 5 0 (by norm_num) (by
      simp [List.nodup_cons])

/-- Counterexample to claim C1 as stated.  Topics `A` (easy) and `B` (hard),
one study day, 5 h/day, so `total_available_hours = 5` and `A`'s raw share is
5/4.  Round-half-up at the ×2 scale (the spec's words) gives 3/2, but the
code stores 1: Python's `round(2.5)` is 2 (tie to even), so the halfway value
rounds **down**.  (Checked against the float run of the source: identical.) -/
theorem C1_counterexample :
    weight ⟨"A", 1, false⟩ / weightSum [⟨"A", 1, false⟩, ⟨"B", 3, false⟩] *
        (((buildStudyDays 0 1 true).length : ℚ) * 5) = 5/4 ∧
    dictGet (initRemaining [⟨"A", 1, false⟩, ⟨"B", 3, false⟩]
        (weightSum [⟨"A", 1, false⟩, ⟨"B", 3, false⟩])
        (((buildStudyDays 0 1 true).length : ℚ) * 5)) "A" = some 1 ∧
    specRoundHalfUpTo2 (5/4) = 3/2 ∧
    (1 : ℚ) ≠ 3/2 := by
  have r1 : pyRound (5/2 : ℚ) = 2 := by
    rw [show (5/2 : ℚ) = ((2 : ℤ) : ℚ) + 1/2 by norm_num]
    exact pyRound_tie_even (by decide)
  have r2 : pyRound (15/2 : ℚ) = 8 := by
    rw [show (15/2 : ℚ) = ((7 : ℤ) : ℚ) + 1/2 by norm_num]
    exact pyRound_tie_odd (by decide)
  refine ⟨?_, ?_, ?_, by norm_num⟩
  · norm_num [weight, weightSum, buildStudyDays, List.range_succ]
  · norm_num [initRemaining, weightSum, weight, entitlement, roundTo2,
      buildStudyDays, List.range_succ, dictSet, dictGet, r1, r2]
  · unfold specRoundHalfUpTo2
    rw [show (5 : ℚ)/4 * 2 = 5/2 by norm_num, round_eq,
      show (5 : ℚ)/2 + 1/2 = 3 by norm_num]
    norm_num

/-! ## C2: missing zero-weight guard -/

/-- Claim C2 (code bug).  The source has **no** guard on `sum_w == 0`: for a
topic list of total weight 0 it reaches `(w / sum_w)` and Python raises a
bare `ZeroDivisionError`, not a descriptive computation error. -/
theorem C2_zero_weights_uncaught :
    weightSum [⟨"A", 0, false⟩] = 0 ∧
    generate_schedule [⟨"A", 0, false⟩] 1 3 true 0 =
      .error "ZeroDivisionError: float division by zero" ∧
    "ZeroDivisionError: float division by zero" ≠
      "Exam date must be in the future." ∧
    "ZeroDivisionError: float division by zero" ≠
      "No study days available (check exam date / weekend option)." := by
  refine ⟨by norm_num [weightSum, weight], ?_, by decide, by decide⟩
  norm_num [generate_schedule, buildStudyDays, List.range_succ, weightSum, weight]

/-! ## C7: the per-step allocation is *not* rounded down -/

/-- Claim C7 (corrected).  `alloc` is `min(remaining[topic], hours_left)`
rounded to the **nearest** quarter (Python round, ties to even), not rounded
down: it can exceed `min(remaining[topic], hours_left)`, though never by more
than 1/8; when both arguments lie on the quarter-hour grid it equals the min
exactly. -/
theorem C7_alloc_nearest_quarter (remT hl : ℚ) :
    allocAmount remT hl = roundTo4 (min remT hl) ∧
    allocAmount remT hl ≤ min remT hl + 1/8 ∧
    (IsQuarter remT → IsQuarter hl → allocAmount remT hl = min remT hl) := by
  refine ⟨rfl, roundTo4_le _, fun h1 h2 => ?_⟩
  exact roundTo4_eq_of_isQuarter (isQuarter_min h1 h2)

/-- Witness for `C7_alloc_nearest_quarter` at a concrete input. -/
theorem C7_alloc_nearest_quarter_witness :
    allocAmount (1/2) (3/4) = min (1/2 : ℚ) (3/4) :=
  (C7_alloc_nearest_quarter (1/2) (3/4)).2.2 ⟨2, by norm_num⟩ ⟨3, by norm_num⟩

/-- Counterexample to claim C7 as stated.  One hard topic, two study days,
1.2 h/day.  The first loop state has `remaining["A"] = 5/2` and
`hours_left = 6/5`; the emitted alloc is 5/4, which **exceeds**
`min(remaining[topic], hours_left) = 6/5`, and the round-down value would be
1, not 5/4.  (Checked against the float run of the source: identical.) -/
theorem C7_counterexample :
    generate_schedule [⟨"A", 3, false⟩] 2 (6/5) true 0 =
      .ok ⟨[⟨0, "A", 5/4⟩, ⟨1, "A", 5/4⟩], [⟨0, "A", 5/4⟩, ⟨1, "A", 5/4⟩],
           [("A", 0)], 12/5⟩ ∧
    dictGet (initRemaining [⟨"A", 3, false⟩] (weightSum [⟨"A", 3, false⟩])
        (12/5)) "A" = some (5/2) ∧
    allocAmount (5/2) (6/5) = 5/4 ∧
    min (5/2 : ℚ) (6/5) < 5/4 ∧
    specFloorTo4 (min (5/2 : ℚ) (6/5)) = 1 := by
  have r1 : pyRound (24/5 : ℚ) = 5 :=
    pyRound_eq_of_bounds (by norm_num) (by norm_num)
  have r2 : pyRound (5 : ℚ) = 5 := by exact_mod_cast pyRound_intCast 5
  have r3 : pyRound (-(1/5) : ℚ) = 0 :=
    pyRound_eq_of_bounds (by norm_num) (by norm_num)
  have r4 : pyRound (0 : ℚ) = 0 := by exact_mod_cast pyRound_intCast 0
  refine ⟨?_, ?_, ?_, by norm_num, ?_⟩
  · norm_num [generate_schedule, buildStudyDays, List.range_succ, dayFuel,
      initRemaining, weightSum, weight, entitlement, roundTo2, roundTo4,
      allocDays, dayLoop, dayStep, innerCond, allocAmount, min_def,
      dictSet, dictGet, dictKeys, pyMaxSnd, aggregate, rowKey, sortKeys,
      insertKey, keyLE, List.dedup_cons_of_mem, List.dedup_cons_of_not_mem,
      List.dedup_nil, r1, r2, r3, r4]
    intro h
    exact absurd h (by simp)
  · norm_num [initRemaining, weightSum, weight, entitlement, roundTo2,
      dictSet, dictGet, r1]
  · norm_num [allocAmount, roundTo4, min_def, r1]
  · norm_num [specFloorTo4, min_def]

/-! ## C10: empty topic list -/

theorem allocDays_nil_rem (fuel : Nat) (daily : ℚ) :
    ∀ ds, allocDays fuel daily ds [] = some ([], []) := by
  intro ds
  induction ds with
  | nil => rfl
  | cons day ds ih =>
    have hloop : dayLoop day fuel [] daily [] = some ([], daily, []) := by
      unfold dayLoop
      rw [if_neg]
      rintro ⟨h1, p, hp, h2⟩
      exact absurd hp (List.not_mem_nil p)
    simp only [allocDays, hloop, ih]
    rfl

/-- Claim C10 (confirmed).  With an empty topic list and a valid non-empty
study window, `generate_schedule` reaches the fallback path with
`len(topic_names) == 0` and dies on the modulo with an uncaught
`ZeroDivisionError`; it returns no schedule and raises neither descriptive
validation error. -/
theorem C10_empty_topics_zero_division (examDate : Nat) (dailyHours : ℚ)
    (iw : Bool) (today : Nat)
    (hdays : buildStudyDays today examDate iw ≠ []) :
    generate_schedule [] examDate dailyHours iw today =
      .error "ZeroDivisionError: integer division or modulo by zero" ∧
    "ZeroDivisionError: integer division or modulo by zero" ≠
      "Exam date must be in the future." ∧
    "ZeroDivisionError: integer division or modulo by zero" ≠
      "No study days available (check exam date / weekend option)." := by
  refine ⟨?_, by decide, by decide⟩
  have h1 : ¬ (examDate ≤ today) := by
    intro hle
    apply hdays
    unfold buildStudyDays
    rw [Nat.sub_eq_zero_of_le hle]
    rfl
  have h2 : ¬ ((buildStudyDays today examDate iw).length = 0) := by
    simpa [List.length_eq_zero] using hdays
  simp only [generate_schedule]
  rw [if_neg h1, if_neg h2, if_neg (by simp)]
  have hinit : initRemaining [] (weightSum [])
      (((buildStudyDays today examDate iw).length : ℚ) * dailyHours) = [] := rfl
  rw [hinit, allocDays_nil_rem]
  rfl

/-- Witness for `C10_empty_topics_zero_division` at a concrete input
(exam tomorrow, weekends included). -/
theorem C10_empty_topics_zero_division_witness :
    generate_schedule [] 1 3 true 0 =
      .error "ZeroDivisionError: integer division or modulo by zero" ∧
    "ZeroDivisionError: integer division or modulo by zero" ≠
      "Exam date must be in the future." ∧
    "ZeroDivisionError: integer division or modulo by zero" ≠
      "No study days available (check exam date / weekend option)." :=
  C10_empty_topics_zero_division 1 3 true 0
    (by norm_num [buildStudyDays, List.range_succ])

/-! ## C9: termination of the day loop -/

/-- Any iteration that completes its body and returns to the loop guard has
emitted an alloc of at least 1/4 h, and lowered `hours_left` by at least
1/8 h (the quarter-rounding of line 121 can hand back up to 1/8 h). -/
theorem dayStep_go_decrease {day : Nat} {rem : PyDict} {hl : ℚ}
    {rows : List Row} {rem' : PyDict} {hl' : ℚ} {rows' : List Row}
    (h : dayStep day rem hl rows = .go rem' hl' rows') : hl' ≤ hl - 1/8 := by
  unfold dayStep at h
  cases hmax : pyMaxSnd rem with
  | none => rw [hmax] at h; exact StepResult.noConfusion h
  | some p =>
    rcases p with ⟨topic, remT⟩
    rw [hmax] at h
    simp only at h
    by_cases h1 : remT < 1/4
    · rw [if_pos h1] at h
      exact StepResult.noConfusion h
    · rw [if_neg h1] at h
      by_cases h2 : allocAmount remT hl ≤ 0
      · rw [if_pos h2] at h
        exact StepResult.noConfusion h
      · rw [if_neg h2] at h
        by_cases h3 : roundTo4 (hl - allocAmount remT hl) < 1/4
        · rw [if_pos h3] at h
          exact StepResult.noConfusion h
        · rw [if_neg h3] at h
          injection h with hrem hhl hrows
          rw [← hhl]
          have hpos : 0 < allocAmount remT hl := lt_of_not_le h2
          have hq : 1/4 ≤ allocAmount remT hl :=
            isQuarter_pos_ge (roundTo4_isQuarter _) hpos
          have := roundTo4_le (hl - allocAmount remT hl)
          linarith

/-- With fuel exceeding `8 * hours_left`, the day loop cannot run out. -/
theorem dayLoop_isSome (day : Nat) :
    ∀ (fuel : Nat) (rem : PyDict) (hl : ℚ) (rows : List Row),
      8 * hl < (fuel : ℚ) → (dayLoop day fuel rem hl rows).isSome := by
  intro fuel
  induction fuel with
  | zero =>
    intro rem hl rows hf
    unfold dayLoop
    rw [if_neg]
    · simp
    · rintro ⟨hge, -⟩
      norm_num at hf
      linarith
  | succ n ih =>
    intro rem hl rows hf
    unfold dayLoop
    split
    · cases hstep : dayStep day rem hl rows with
      | stop rem' hl' rows' => simp
      | go rem' hl' rows' =>
        simp only
        apply ih
        have hdec := dayStep_go_decrease hstep
        push_cast at hf ⊢
        linarith
    · simp

/-- The fuel the engine passes to each day's loop is always sufficient. -/
theorem allocDays_isSome (daily : ℚ) :
    ∀ (ds : List Nat) (rem : PyDict),
      (allocDays (dayFuel daily) daily ds rem).isSome := by
  intro ds
  induction ds with
  | nil => intro rem; simp [allocDays]
  | cons day ds ih =>
    intro rem
    have hfuel : 8 * daily < ((dayFuel daily : Nat) : ℚ) := by
      unfold dayFuel
      push_cast
      have h1 : 8 * daily ≤ (⌈8 * daily⌉ : ℚ) := Int.le_ceil _
      have h2 : ((⌈8 * daily⌉ : ℤ) : ℚ) ≤ ((⌈8 * daily⌉.toNat : ℤ) : ℚ) := by
        exact_mod_cast Int.self_le_toNat _
      push_cast at h2
      linarith
    have hs := dayLoop_isSome day (dayFuel daily) rem daily [] hfuel
    rw [Option.isSome_iff_exists] at hs
    obtain ⟨p, hp⟩ := hs
    rcases p with ⟨rem', hl', dayRows⟩
    have hs2 := ih rem'
    rw [Option.isSome_iff_exists] at hs2
    obtain ⟨q, hq⟩ := hs2
    rcases q with ⟨remF, rest⟩
    simp only [allocDays, hp, hq]
    rfl

/-- Claim C9 (corrected).  The allocation always terminates, but the claimed
mechanism is off: a completing iteration lowers `hours_left` by at least
**1/8** hour, not necessarily by a full 0.25-hour granularity unit (the
re-rounding of line 121 can hand back up to 1/8 h, see
`C9_counterexample`).  Conjuncts: (1) every iteration that returns to the
loop guard lowers `hours_left` by ≥ 1/8; (2) the loop halts within any fuel
exceeding `8 * hours_left`; (3) the engine, run with its own fuel, never
exhausts it on any input. -/
theorem C9_loop_terminates :
    (∀ (day : Nat) (rem : PyDict) (hl : ℚ) (rows : List Row)
        (rem' : PyDict) (hl' : ℚ) (rows' : List Row),
        dayStep day rem hl rows = .go rem' hl' rows' → hl' ≤ hl - 1/8) ∧
    (∀ (day fuel : Nat) (rem : PyDict) (hl : ℚ) (rows : List Row),
        8 * hl < (fuel : ℚ) → (dayLoop day fuel rem hl rows).isSome) ∧
    (∀ (topics : List Topic) (examDate : Nat) (dailyHours : ℚ)
        (iw : Bool) (today : Nat),
        generate_schedule topics examDate dailyHours iw today ≠
          .error "model: loop fuel exhausted") := by
  refine ⟨fun day rem hl rows rem' hl' rows' h => dayStep_go_decrease h,
    fun day fuel rem hl rows hf => dayLoop_isSome day fuel rem hl rows hf, ?_⟩
  intro topics examDate dailyHours iw today
  simp only [generate_schedule]
  split
  · simp
  · split
    · simp
    · split
      · simp
      · cases hm : allocDays (dayFuel dailyHours) dailyHours
            (buildStudyDays today examDate iw)
            (initRemaining topics (weightSum topics)
              (((buildStudyDays today examDate iw).length : ℚ) * dailyHours)) with
        | none =>
          have hs := allocDays_isSome dailyHours (buildStudyDays today examDate iw)
            (initRemaining topics (weightSum topics)
              (((buildStudyDays today examDate iw).length : ℚ) * dailyHours))
          rw [hm] at hs
          exact absurd hs (by simp)
        | some p =>
          rcases p with ⟨remF, schedRows⟩
          simp only
          split
          · split
            · simp
            · simp
          · simp

/-- Witness for `C9_loop_terminates` at a concrete state. -/
theorem C9_loop_terminates_witness : (dayLoop 0 1 [] 0 []).isSome :=
  C9_loop_terminates.2.1 0 1 [] 0 [] (by norm_num)

/-- Counterexample to claim C9 as stated.  Two equal topics, three study
days, 0.65 h/day.  After days 0 and 1 the remaining map is
`{A: 1/4, B: 1/4}`.  Day 2 enters the loop with `hours_left = 13/20`; its
first iteration completes its body without hitting any `break` (it returns
`.go`, and indeed a second row is emitted the same day), yet it lowers
`hours_left` only from 13/20 to 1/2 — a decrease of 3/20, strictly less
than one 0.25-hour granularity unit.  (Checked against the float run of the
source: identical.) -/
theorem C9_counterexample :
    generate_schedule [⟨"A", 1, false⟩, ⟨"B", 1, false⟩] 3 (13/20) true 0 =
      .ok ⟨[⟨0, "A", 3/4⟩, ⟨1, "B", 3/4⟩, ⟨2, "A", 1/4⟩, ⟨2, "B", 1/4⟩],
           [⟨0, "A", 3/4⟩, ⟨1, "B", 3/4⟩, ⟨2, "A", 1/4⟩, ⟨2, "B", 1/4⟩],
           [("A", 0), ("B", 0)], 39/20⟩ ∧
    allocDays (dayFuel (13/20)) (13/20) [0, 1]
        (initRemaining [⟨"A", 1, false⟩, ⟨"B", 1, false⟩]
          (weightSum [⟨"A", 1, false⟩, ⟨"B", 1, false⟩]) (39/20)) =
      some ([("A", 1/4), ("B", 1/4)], [⟨0, "A", 3/4⟩, ⟨1, "B", 3/4⟩]) ∧
    dayStep 2 [("A", 1/4), ("B", 1/4)] (13/20) [] =
      .go [("A", 0), ("B", 1/4)] (1/2) [⟨2, "A", 1/4⟩] ∧
    (13/20 : ℚ) - 1/2 < 1/4 := by
  have r1 : pyRound (39/20 : ℚ) = 2 :=
    pyRound_eq_of_bounds (by norm_num) (by norm_num)
  have r2 : pyRound (13/5 : ℚ) = 3 :=
    pyRound_eq_of_bounds (by norm_num) (by norm_num)
  have r3 : pyRound (1 : ℚ) = 1 := by exact_mod_cast pyRound_intCast 1
  have r4 : pyRound (-(2/5) : ℚ) = 0 :=
    pyRound_eq_of_bounds (by norm_num) (by norm_num)
  have r5 : pyRound (8/5 : ℚ) = 2 :=
    pyRound_eq_of_bounds (by norm_num) (by norm_num)
  have r6 : pyRound (0 : ℚ) = 0 := by exact_mod_cast pyRound_intCast 0
  have sAB : ¬ (("A" : String) = "B") := by decide
  have sBA : ¬ (("B" : String) = "A") := by decide
  have hf : (⌈(26 : ℚ)/5⌉ : ℤ).toNat = 6 := by
    have h6 : (⌈(26 : ℚ)/5⌉ : ℤ) = 6 := by
      rw [Int.ceil_eq_iff]
      norm_num
    rw [h6]
    rfl
  refine ⟨?_, ?_, ?_, by norm_num⟩
  · norm_num [generate_schedule, buildStudyDays, List.range_succ, dayFuel,
      initRemaining, weightSum, weight, entitlement, roundTo2, roundTo4,
      allocDays, dayLoop, dayStep, innerCond, allocAmount, min_def,
      dictSet, dictGet, dictKeys, pyMaxSnd, aggregate, rowKey, sortKeys,
      insertKey, keyLE, List.dedup_cons_of_mem, List.dedup_cons_of_not_mem,
      List.dedup_nil, sAB, sBA, hf, r1, r2, r3, r4, r5, r6]
    intro h
    exact absurd h (by simp)
  · norm_num [initRemaining, weightSum, weight, entitlement, roundTo2,
      roundTo4, allocDays, dayLoop, dayStep, innerCond, allocAmount, min_def,
      dictSet, dictGet, pyMaxSnd, dayFuel, sAB, sBA, hf, r1, r2, r3, r4, r6]
  · norm_num [dayStep, pyMaxSnd, allocAmount, roundTo4, min_def, dictSet,
      sAB, sBA, r3, r5, r6]

/-! ## C8: the DemandMap never grows -/

theorem dictGet_mem {m : PyDict} {k : String} {v : ℚ}
    (h : dictGet m k = some v) : (k, v) ∈ m := by
  induction m with
  | nil => exact absurd h (by simp [dictGet])
  | cons p rest ih =>
    rcases p with ⟨pk, pv⟩
    by_cases hp : pk = k
    · subst hp
      have hv : dictGet ((pk, pv) :: rest) pk = some pv := by simp [dictGet]
      rw [hv] at h
      injection h with h
      subst h
      exact List.mem_cons_self _ _
    · simp only [dictGet, if_neg hp] at h
      exact List.mem_cons_of_mem _ (ih h)

theorem dictGet_of_mem_nodup {m : PyDict} {p : String × ℚ}
    (hmem : p ∈ m) (hnd : (dictKeys m).Nodup) : dictGet m p.1 = some p.2 := by
  induction m with
  | nil => exact absurd hmem (List.not_mem_nil p)
  | cons q rest ih =>
    simp only [dictKeys, List.map_cons, List.nodup_cons] at hnd
    rcases List.mem_cons.mp hmem with rfl | hmem'
    · simp [dictGet]
    · have hq : q.1 ≠ p.1 := by
        intro he
        exact hnd.1 (he ▸ List.mem_map_of_mem Prod.fst hmem')
      simp only [dictGet, if_neg hq]
      exact ih hmem' hnd.2

theorem dictKeys_nodup_dictSet {m : PyDict} (h : (dictKeys m).Nodup)
    (k : String) (v : ℚ) : (dictKeys (dictSet m k v)).Nodup := by
  by_cases hk : k ∈ dictKeys m
  · rw [dictKeys_dictSet_of_mem hk]
    exact h
  · rw [dictKeys_dictSet_of_not_mem hk]
    simp only [List.nodup_append, List.nodup_cons, List.not_mem_nil,
      not_false_iff, List.nodup_nil, and_true, true_and]
    constructor
    · exact h
    · intro a ha hb
      simp only [List.mem_singleton] at hb
      exact hk (hb ▸ ha)

theorem dictKeys_initRemaining_nodup (topics : List Topic) (sumW total : ℚ) :
    (dictKeys (initRemaining topics sumW total)).Nodup := by
  unfold initRemaining
  suffices hgen : ∀ (ts : List Topic) (m : PyDict), (dictKeys m).Nodup →
      (dictKeys (ts.foldl
        (fun m t => dictSet m t.name (entitlement (weight t) sumW total)) m)).Nodup by
    exact hgen topics [] (by simp [dictKeys])
  intro ts
  induction ts with
  | nil => intro m hm; exact hm
  | cons u rest ih =>
    intro m hm
    simp only [List.foldl_cons]
    exact ih _ (dictKeys_nodup_dictSet hm _ _)

theorem initRemaining_values_ge_half (topics : List Topic) (sumW total : ℚ) :
    ∀ p ∈ initRemaining topics sumW total, 1/2 ≤ p.2 := by
  unfold initRemaining
  suffices hgen : ∀ (ts : List Topic) (m : PyDict), (∀ p ∈ m, 1/2 ≤ p.2) →
      ∀ p ∈ ts.foldl
        (fun m t => dictSet m t.name (entitlement (weight t) sumW total)) m,
        1/2 ≤ p.2 by
    exact hgen topics [] (by simp)
  intro ts
  induction ts with
  | nil => intro m hm p hp; exact hm p hp
  | cons u rest ih =>
    intro m hm p hp
    simp only [List.foldl_cons] at hp
    refine ih _ (fun q hq => ?_) p hp
    rcases mem_dictSet_val hq with h | h
    · exact hm q h
    · rw [h]
      exact entitlement_ge_half _ _ _

theorem RemEvolve.refl (m : PyDict) : RemEvolve m m :=
  fun _ v₁ h => ⟨v₁, h, le_refl _, Or.inl rfl⟩

theorem RemEvolve.trans {m₀ m₁ m₂ : PyDict}
    (h01 : RemEvolve m₀ m₁) (h12 : RemEvolve m₁ m₂) : RemEvolve m₀ m₂ := by
  intro name v₂ h2
  obtain ⟨v₁, hg1, hle1, hd1⟩ := h12 name v₂ h2
  obtain ⟨v₀, hg0, hle0, hd0⟩ := h01 name v₁ hg1
  refine ⟨v₀, hg0, hle1.trans hle0, ?_⟩
  rcases hd1 with rfl | hnn
  · rcases hd0 with rfl | hnn'
    · exact Or.inl rfl
    · exact Or.inr hnn'
  · exact Or.inr hnn

theorem dayStep_evolve (day : Nat) (rem : PyDict) (hl : ℚ) (rows : List Row)
    (hnd : (dictKeys rem).Nodup) :
    (dictKeys (dayStep day rem hl rows).remaining).Nodup ∧
    RemEvolve rem (dayStep day rem hl rows).remaining := by
  unfold dayStep
  cases hmax : pyMaxSnd rem with
  | none => exact ⟨hnd, RemEvolve.refl rem⟩
  | some p =>
    rcases p with ⟨topic, remT⟩
    simp only
    have hget : dictGet rem topic = some remT :=
      dictGet_of_mem_nodup (pyMaxSnd_mem hmax) hnd
    split_ifs with h1 h2 h3
    · exact ⟨hnd, RemEvolve.refl rem⟩
    · exact ⟨hnd, RemEvolve.refl rem⟩
    all_goals {
      simp only [StepResult.remaining]
      have hpos : 0 < allocAmount remT hl := lt_of_not_le h2
      have hq : 1/4 ≤ allocAmount remT hl :=
        isQuarter_pos_ge (roundTo4_isQuarter _) hpos
      have halloc : allocAmount remT hl ≤ remT + 1/8 := by
        have := roundTo4_le (min remT hl)
        have := min_le_left remT hl
        unfold allocAmount
        linarith
      have hnv_le : roundTo4 (remT - allocAmount remT hl) ≤ remT := by
        have := roundTo4_le (remT - allocAmount remT hl)
        linarith
      have hnv_nn : 0 ≤ roundTo4 (remT - allocAmount remT hl) := by
        apply roundTo4_nonneg
        linarith
      refine ⟨dictKeys_nodup_dictSet hnd _ _, ?_⟩
      intro name v₁ hg
      by_cases hn : name = topic
      · subst hn
        rw [dictGet_dictSet_self] at hg
        injection hg with hg
        subst hg
        exact ⟨remT, hget, hnv_le, Or.inr hnv_nn⟩
      · rw [dictGet_dictSet_ne _ _ hn] at hg
        exact ⟨v₁, hg, le_refl _, Or.inl rfl⟩
    }

theorem dayLoop_evolve (day : Nat) :
    ∀ (fuel : Nat) (rem : PyDict) (hl : ℚ) (rows : List Row)
      (rem' : PyDict) (hl' : ℚ) (rows' : List Row),
      dayLoop day fuel rem hl rows = some (rem', hl', rows') →
      (dictKeys rem).Nodup →
      (dictKeys rem').Nodup ∧ RemEvolve rem rem' := by
  intro fuel
  induction fuel with
  | zero =>
    intro rem hl rows rem' hl' rows' h hnd
    unfold dayLoop at h
    split at h
    · exact absurd h (by simp)
    · simp only [Option.some.injEq, Prod.mk.injEq] at h
      obtain ⟨rfl, -, -⟩ := h
      exact ⟨hnd, RemEvolve.refl rem⟩
  | succ n ih =>
    intro rem hl rows rem' hl' rows' h hnd
    unfold dayLoop at h
    split at h
    · cases hstep : dayStep day rem hl rows with
      | stop rem₁ hl₁ rows₁ =>
        rw [hstep] at h
        simp only [Option.some.injEq, Prod.mk.injEq] at h
        obtain ⟨rfl, -, -⟩ := h
        have := dayStep_evolve day rem hl rows hnd
        rw [hstep] at this
        exact this
      | go rem₁ hl₁ rows₁ =>
        rw [hstep] at h
        have hev := dayStep_evolve day rem hl rows hnd
        rw [hstep] at hev
        have := ih rem₁ hl₁ rows₁ rem' hl' rows' h hev.1
        exact ⟨this.1, hev.2.trans this.2⟩
    · simp only [Option.some.injEq, Prod.mk.injEq] at h
      obtain ⟨rfl, -, -⟩ := h
      exact ⟨hnd, RemEvolve.refl rem⟩

theorem allocDays_evolve (fuel : Nat) (daily : ℚ) :
    ∀ (ds : List Nat) (rem remF : PyDict) (rows : List Row),
      allocDays fuel daily ds rem = some (remF, rows) →
      (dictKeys rem).Nodup →
      (dictKeys remF).Nodup ∧ RemEvolve rem remF := by
  intro ds
  induction ds with
  | nil =>
    intro rem remF rows h hnd
    simp only [allocDays, Option.some.injEq, Prod.mk.injEq] at h
    obtain ⟨rfl, -⟩ := h
    exact ⟨hnd, RemEvolve.refl rem⟩
  | cons day ds ih =>
    intro rem remF rows h hnd
    simp only [allocDays] at h
    cases hloop : dayLoop day fuel rem daily [] with
    | none => rw [hloop] at h; exact absurd h (by simp)
    | some p =>
      rcases p with ⟨rem₁, hl₁, dayRows⟩
      simp only [hloop] at h
      cases hrest : allocDays fuel daily ds rem₁ with
      | none =>
        simp only [hrest] at h
        exact absurd h (by simp)
      | some q =>
        rcases q with ⟨remF', rest⟩
        simp only [hrest] at h
        simp only [Option.some.injEq, Prod.mk.injEq] at h
        obtain ⟨rfl, -⟩ := h
        have h1 := dayLoop_evolve day fuel rem daily [] rem₁ hl₁ dayRows hloop hnd
        have h2 := ih rem₁ remF' rest hrest h1.1
        exact ⟨h2.1, h1.2.trans h2.2⟩

/-- Inversion: what a successful `generate_schedule` run looks like. -/
theorem generate_schedule_ok {topics : List Topic} {examDate : Nat}
    {dailyHours : ℚ} {iw : Bool} {today : Nat} {res : SchedOut}
    (h : generate_schedule topics examDate dailyHours iw today = .ok res) :
    buildStudyDays today examDate iw ≠ [] ∧
    ∃ remF schedRows,
      allocDays (dayFuel dailyHours) dailyHours
          (buildStudyDays today examDate iw)
          (initRemaining topics (weightSum topics)
            (((buildStudyDays today examDate iw).length : ℚ) * dailyHours)) =
        some (remF, schedRows) ∧
      res.remainingHours = remF ∧
      ((schedRows = [] ∧ dictKeys remF ≠ [] ∧ res.scheduleRows = [] ∧
          res.df = aggregate (fallbackRowsOf (buildStudyDays today examDate iw)
            (dictKeys remF) dailyHours)) ∨
       (schedRows ≠ [] ∧ res.scheduleRows = schedRows ∧
          res.df = aggregate schedRows)) := by
  simp only [generate_schedule] at h
  split at h
  · exact absurd h (by simp)
  · split at h
    · exact absurd h (by simp)
    · rename_i hlen
      refine ⟨fun hnil => hlen (by rw [hnil]; rfl), ?_⟩
      split at h
      · exact absurd h (by simp)
      · cases hm : allocDays (dayFuel dailyHours) dailyHours
            (buildStudyDays today examDate iw)
            (initRemaining topics (weightSum topics)
              (((buildStudyDays today examDate iw).length : ℚ) * dailyHours)) with
        | none =>
          simp only [hm] at h
          exact absurd h (by simp)
        | some p =>
          rcases p with ⟨remF, schedRows⟩
          simp only [hm] at h
          refine ⟨remF, schedRows, rfl, ?_⟩
          split at h
          · rename_i hempty
            split at h
            · exact absurd h (by simp)
            · rename_i hnames
              injection h with h
              subst h
              exact ⟨rfl, Or.inl ⟨hempty, fun hn => hnames (by
                  simp only [hn]), rfl, rfl⟩⟩
          · rename_i hne
            injection h with h
            subst h
            exact ⟨rfl, Or.inr ⟨hne, rfl, rfl⟩⟩

/-- Claim C8 (confirmed).  (1) Each in-loop update
`remaining[topic] = round((remaining[topic] - alloc)*4)/4` with a positive
alloc leaves the entry no larger than before and nonnegative; (2) end to end,
every entry of the final `remaining_hours` is between 0 and its initial
DemandMap value. -/
theorem C8_demand_map_monotone :
    (∀ remT hl : ℚ, 0 < allocAmount remT hl →
        roundTo4 (remT - allocAmount remT hl) ≤ remT ∧
        0 ≤ roundTo4 (remT - allocAmount remT hl)) ∧
    (∀ (topics : List Topic) (examDate : Nat) (dailyHours : ℚ) (iw : Bool)
        (today : Nat) (res : SchedOut) (name : String) (v₀ v₁ : ℚ),
        generate_schedule topics examDate dailyHours iw today = .ok res →
        dictGet (initRemaining topics (weightSum topics)
            (((buildStudyDays today examDate iw).length : ℚ) * dailyHours))
          name = some v₀ →
        dictGet res.remainingHours name = some v₁ →
        0 ≤ v₁ ∧ v₁ ≤ v₀) := by
  constructor
  · intro remT hl hpos
    have hq : 1/4 ≤ allocAmount remT hl :=
      isQuarter_pos_ge (roundTo4_isQuarter _) hpos
    have halloc : allocAmount remT hl ≤ remT + 1/8 := by
      have h1 := roundTo4_le (min remT hl)
      have h2 := min_le_left remT hl
      unfold allocAmount
      linarith
    constructor
    · have := roundTo4_le (remT - allocAmount remT hl)
      linarith
    · apply roundTo4_nonneg
      linarith
  · intro topics examDate dailyHours iw today res name v₀ v₁ hok hg0 hg1
    obtain ⟨-, remF, schedRows, hm, hrem, -⟩ := generate_schedule_ok hok
    rw [hrem] at hg1
    have hev := allocDays_evolve (dayFuel dailyHours) dailyHours
      (buildStudyDays today examDate iw) _ remF schedRows hm
      (dictKeys_initRemaining_nodup _ _ _)
    obtain ⟨v₀', hg0', hle, hd⟩ := hev.2 name v₁ hg1
    rw [hg0] at hg0'
    injection hg0' with hv
    subst hv
    refine ⟨?_, hle⟩
    rcases hd with rfl | hnn
    · have := initRemaining_values_ge_half topics (weightSum topics)
        (((buildStudyDays today examDate iw).length : ℚ) * dailyHours)
        (name, v₁) (dictGet_mem hg0)
      simp only at this
      linarith
    · exact hnn

/-- Witness for `C8_demand_map_monotone` at a concrete update. -/
theorem C8_demand_map_monotone_witness :
    roundTo4 ((1/2 : ℚ) - allocAmount (1/2) (1/2)) ≤ 1/2 ∧
    0 ≤ roundTo4 ((1/2 : ℚ) - allocAmount (1/2) (1/2)) := by
  apply C8_demand_map_monotone.1 (1/2) (1/2)
  have r : pyRound (2 : ℚ) = 2 := by exact_mod_cast pyRound_intCast 2
  norm_num [allocAmount, roundTo4, min_def, r]

/-! ## C6: priority doubling -/

theorem weight_nonneg (t : Topic) : 0 ≤ weight t := by
  unfold weight
  split <;> positivity

theorem weight_le_weightSum {t : Topic} {topics : List Topic}
    (ht : t ∈ topics) : weight t ≤ weightSum topics := by
  apply List.single_le_sum
  · intro x hx
    obtain ⟨u, -, rfl⟩ := List.mem_map.mp hx
    exact weight_nonneg u
  · exact List.mem_map_of_mem weight ht

theorem list_set_self {α : Type} :
    ∀ (l : List α) (i : Nat) (hi : i < l.length), l.set i (l.get ⟨i, hi⟩) = l
  | [], i, hi => absurd hi (by simp)
  | a :: l, 0, _ => rfl
  | a :: l, i + 1, hi => by
    show a :: l.set i _ = a :: l
    congr 1
    exact list_set_self l i (by simpa using hi)

theorem weightSum_cons (t : Topic) (l : List Topic) :
    weightSum (t :: l) = weight t + weightSum l := by
  simp [weightSum]

theorem weightSum_set :
    ∀ (topics : List Topic) (i : Nat) (hi : i < topics.length) (t' : Topic),
      weightSum (topics.set i t') =
        weightSum topics - weight (topics.get ⟨i, hi⟩) + weight t'
  | [], i, hi, _ => absurd hi (by simp)
  | u :: rest, 0, _, t' => by
    show weightSum (t' :: rest) = weightSum (u :: rest) - weight u + weight t'
    rw [weightSum_cons, weightSum_cons]
    ring
  | u :: rest, i + 1, hi, t' => by
    show weightSum (u :: rest.set i t') = _
    rw [weightSum_cons, weightSum_set rest i (by simpa using hi) t']
    show _ = weightSum (u :: rest) - weight ((u :: rest).get ⟨i + 1, hi⟩) + _
    rw [weightSum_cons]
    have : (u :: rest).get ⟨i + 1, hi⟩ = rest.get ⟨i, by simpa using hi⟩ := rfl
    rw [this]
    ring

theorem entitlement_mono_core {w S T : ℚ} (hw : 0 < w) (hwS : w ≤ S)
    (hT : 0 ≤ T) : entitlement w S T ≤ entitlement (2 * w) (S + w) T := by
  have hS : 0 < S := lt_of_lt_of_le hw hwS
  have hSw : 0 < S + w := by linarith
  have hdiv : w / S ≤ 2 * w / (S + w) := by
    rw [div_le_div_iff hS hSw]
    nlinarith
  have hraw : w / S * T ≤ 2 * w / (S + w) * T :=
    mul_le_mul_of_nonneg_right hdiv hT
  have hr2 := roundTo2_mono hraw
  unfold entitlement
  split_ifs with h1 h2
  · exact le_refl _
  · exact not_lt.mp h2
  · linarith
  · exact hr2

/-- Claim C6 (confirmed).  All else equal, marking topic `i` as priority
doubles its weight exactly (before any rounding), and its initial DemandMap
entry — entitlement after 0.5-rounding and the 0.5 floor — is at least the
entry it gets unmarked. -/
theorem C6_priority_doubling (topics : List Topic) (i : Nat)
    (hi : i < topics.length) (T : ℚ) (hT : 0 ≤ T)
    (hpr : (topics.get ⟨i, hi⟩).priority = false)
    (hdiff : 1 ≤ (topics.get ⟨i, hi⟩).difficulty)
    (hnd : (topics.map Topic.name).Nodup) :
    weight ⟨(topics.get ⟨i, hi⟩).name, (topics.get ⟨i, hi⟩).difficulty, true⟩ =
      2 * weight (topics.get ⟨i, hi⟩) ∧
    ∀ v v' : ℚ,
      dictGet (initRemaining topics (weightSum topics) T)
          (topics.get ⟨i, hi⟩).name = some v →
      dictGet (initRemaining
            (topics.set i ⟨(topics.get ⟨i, hi⟩).name,
              (topics.get ⟨i, hi⟩).difficulty, true⟩)
            (weightSum (topics.set i ⟨(topics.get ⟨i, hi⟩).name,
              (topics.get ⟨i, hi⟩).difficulty, true⟩)) T)
          (topics.get ⟨i, hi⟩).name = some v' →
      v ≤ v' := by
  have hdouble : weight ⟨(topics.get ⟨i, hi⟩).name,
      (topics.get ⟨i, hi⟩).difficulty, true⟩ =
      2 * weight (topics.get ⟨i, hi⟩) := by
    unfold weight
    rw [hpr]
    norm_num
    ring
  refine ⟨hdouble, ?_⟩
  intro v v' hv hv'
  -- names are unchanged by the `set`
  have hnames : (topics.set i ⟨(topics.get ⟨i, hi⟩).name,
      (topics.get ⟨i, hi⟩).difficulty, true⟩).map Topic.name =
      topics.map Topic.name := by
    rw [List.map_set]
    have hget : (topics.map Topic.name).get ⟨i, by simpa using hi⟩ =
        (topics.get ⟨i, hi⟩).name := by
      simp [List.get_map]
    calc (topics.map Topic.name).set i (topics.get ⟨i, hi⟩).name
        = (topics.map Topic.name).set i
            ((topics.map Topic.name).get ⟨i, by simpa using hi⟩) := by rw [hget]
      _ = topics.map Topic.name := list_set_self _ i (by simpa using hi)
  have hnd' : ((topics.set i ⟨(topics.get ⟨i, hi⟩).name,
      (topics.get ⟨i, hi⟩).difficulty, true⟩).map Topic.name).Nodup := by
    rw [hnames]
    exact hnd
  -- identify the two dict entries
  rw [dictGet_initRemaining topics (weightSum topics) T hnd _
    (topics.get_mem i hi)] at hv
  injection hv with hv
  have hmem' : (⟨(topics.get ⟨i, hi⟩).name, (topics.get ⟨i, hi⟩).difficulty,
      true⟩ : Topic) ∈ topics.set i ⟨(topics.get ⟨i, hi⟩).name,
      (topics.get ⟨i, hi⟩).difficulty, true⟩ := by
    have hlen : i < (topics.set i ⟨(topics.get ⟨i, hi⟩).name,
        (topics.get ⟨i, hi⟩).difficulty, true⟩).length := by simpa using hi
    have hg := List.get_set_eq (l := topics)
      (a := (⟨(topics.get ⟨i, hi⟩).name, (topics.get ⟨i, hi⟩).difficulty,
        true⟩ : Topic)) hlen
    exact List.mem_iff_get.mpr ⟨⟨i, hlen⟩, hg⟩
  rw [dictGet_initRemaining _ _ T hnd' _ hmem'] at hv'
  injection hv' with hv'
  subst hv
  subst hv'
  -- the new weight sum is the old one plus the doubled topic's old weight
  have hsum : weightSum (topics.set i ⟨(topics.get ⟨i, hi⟩).name,
      (topics.get ⟨i, hi⟩).difficulty, true⟩) =
      weightSum topics + weight (topics.get ⟨i, hi⟩) := by
    rw [weightSum_set topics i hi, hdouble]
    ring
  rw [hsum, hdouble]
  have hw : 0 < weight (topics.get ⟨i, hi⟩) := by
    unfold weight
    rw [hpr]
    simp only [Bool.false_eq_true, if_false]
    have : (1 : ℚ) ≤ ((topics.get ⟨i, hi⟩).difficulty : ℚ) := by
      exact_mod_cast hdiff
    nlinarith
  exact entitlement_mono_core hw
    (weight_le_weightSum (topics.get_mem i hi)) hT

/-- Witness for `C6_priority_doubling` at a concrete input: one medium topic
`A` and one hard topic `B`, `T = 6`; marking `A` as priority. -/
theorem C6_priority_doubling_witness :
    weight ⟨(([⟨"A", 2, false⟩, ⟨"B", 3, false⟩] : List Topic).get
        ⟨0, by norm_num⟩).name,
      (([⟨"A", 2, false⟩, ⟨"B", 3, false⟩] : List Topic).get
        ⟨0, by norm_num⟩).difficulty, true⟩ =
      2 * weight (([⟨"A", 2, false⟩, ⟨"B", 3, false⟩] : List Topic).get
        ⟨0, by norm_num⟩) :=
  (C6_priority_doubling ([⟨"A", 2, false⟩, ⟨"B", 3, false⟩] : List Topic) 0
    (by norm_num) 6 (by norm_num) rfl (by norm_num) (by simp)).1

/-- What one pass of the loop body can do: either stop changing nothing, or
allocate a positive amount to the maximal topic. -/
theorem dayStep_spec (day : Nat) (rem : PyDict) (hl : ℚ) (rows : List Row) :
    dayStep day rem hl rows = .stop rem hl rows ∨
    ∃ topic remT,
      pyMaxSnd rem = some (topic, remT) ∧
      0 < allocAmount remT hl ∧
      (dayStep day rem hl rows).remaining =
        dictSet rem topic (roundTo4 (remT - allocAmount remT hl)) ∧
      (dayStep day rem hl rows).hoursLeft =
        roundTo4 (hl - allocAmount remT hl) ∧
      (dayStep day rem hl rows).rowsAcc =
        rows ++ [⟨day, topic, allocAmount remT hl⟩] := by
  unfold dayStep
  cases hmax : pyMaxSnd rem with
  | none => exact Or.inl rfl
  | some p =>
    rcases p with ⟨topic, remT⟩
    simp only
    split_ifs with h1 h2 h3
    · exact Or.inl rfl
    · exact Or.inl rfl
    · exact Or.inr ⟨topic, remT, rfl, lt_of_not_le h2, rfl, rfl, rfl⟩
    · exact Or.inr ⟨topic, remT, rfl, lt_of_not_le h2, rfl, rfl, rfl⟩

theorem dayStep_keys (day : Nat) (rem : PyDict) (hl : ℚ) (rows : List Row) :
    dictKeys (dayStep day rem hl rows).remaining = dictKeys rem := by
  rcases dayStep_spec day rem hl rows with hs | ⟨topic, remT, hmax, -, hrem, -, -⟩
  · rw [hs]
    rfl
  · rw [hrem]
    apply dictKeys_dictSet_of_mem
    exact List.mem_map_of_mem Prod.fst (pyMaxSnd_mem hmax)

/-- The loop only appends rows; every appended row carries the loop's own
date and a positive quarter-multiple of hours. -/
theorem dayLoop_rows (day : Nat) :
    ∀ (fuel : Nat) (rem : PyDict) (hl : ℚ) (rows : List Row)
      (rem' : PyDict) (hl' : ℚ) (rows' : List Row),
      dayLoop day fuel rem hl rows = some (rem', hl', rows') →
      ∃ ext, rows' = rows ++ ext ∧
        ∀ r ∈ ext, r.date = day ∧ 0 < r.hours ∧ IsQuarter r.hours := by
  intro fuel
  induction fuel with
  | zero =>
    intro rem hl rows rem' hl' rows' h
    unfold dayLoop at h
    split at h
    · exact absurd h (by simp)
    · simp only [Option.some.injEq, Prod.mk.injEq] at h
      obtain ⟨-, -, rfl⟩ := h
      exact ⟨[], by simp, by simp⟩
  | succ n ih =>
    intro rem hl rows rem' hl' rows' h
    unfold dayLoop at h
    split at h
    · rcases dayStep_spec day rem hl rows with hs |
        ⟨topic, remT, hmax, hpos, hrem, hhl, hrows⟩
      · rw [hs] at h
        simp only [Option.some.injEq, Prod.mk.injEq] at h
        obtain ⟨-, -, rfl⟩ := h
        exact ⟨[], by simp, by simp⟩
      · cases hstep : dayStep day rem hl rows with
        | stop rem₁ hl₁ rows₁ =>
          rw [hstep] at h
          rw [hstep] at hrows
          simp only [StepResult.rowsAcc] at hrows
          simp only [Option.some.injEq, Prod.mk.injEq] at h
          obtain ⟨-, -, rfl⟩ := h
          refine ⟨[⟨day, topic, allocAmount remT hl⟩], by simp [hrows], ?_⟩
          intro r hr
          simp only [List.mem_singleton] at hr
          subst hr
          exact ⟨rfl, hpos, roundTo4_isQuarter _⟩
        | go rem₁ hl₁ rows₁ =>
          rw [hstep] at h
          rw [hstep] at hrows
          simp only [StepResult.rowsAcc] at hrows
          obtain ⟨ext₂, hext₂, hprops⟩ := ih rem₁ hl₁ rows₁ rem' hl' rows' h
          refine ⟨⟨day, topic, allocAmount remT hl⟩ :: ext₂, ?_, ?_⟩
          · rw [hext₂, hrows]
            simp
          · intro r hr
            rcases List.mem_cons.mp hr with rfl | hr'
            · exact ⟨rfl, hpos, roundTo4_isQuarter _⟩
            · exact hprops r hr'
    · simp only [Option.some.injEq, Prod.mk.injEq] at h
      obtain ⟨-, -, rfl⟩ := h
      exact ⟨[], by simp, by simp⟩

theorem dayLoop_keys (day : Nat) :
    ∀ (fuel : Nat) (rem : PyDict) (hl : ℚ) (rows : List Row)
      (rem' : PyDict) (hl' : ℚ) (rows' : List Row),
      dayLoop day fuel rem hl rows = some (rem', hl', rows') →
      dictKeys rem' = dictKeys rem := by
  intro fuel
  induction fuel with
  | zero =>
    intro rem hl rows rem' hl' rows' h
    unfold dayLoop at h
    split at h
    · exact absurd h (by simp)
    · simp only [Option.some.injEq, Prod.mk.injEq] at h
      obtain ⟨rfl, -, -⟩ := h
      rfl
  | succ n ih =>
    intro rem hl rows rem' hl' rows' h
    unfold dayLoop at h
    split at h
    · cases hstep : dayStep day rem hl rows with
      | stop rem₁ hl₁ rows₁ =>
        rw [hstep] at h
        simp only [Option.some.injEq, Prod.mk.injEq] at h
        obtain ⟨rfl, -, -⟩ := h
        have := dayStep_keys day rem hl rows
        rw [hstep] at this
        exact this
      | go rem₁ hl₁ rows₁ =>
        rw [hstep] at h
        have h1 := ih rem₁ hl₁ rows₁ rem' hl' rows' h
        have h2 := dayStep_keys day rem hl rows
        rw [hstep] at h2
        rw [h1]
        exact h2
    · simp only [Option.some.injEq, Prod.mk.injEq] at h
      obtain ⟨rfl, -, -⟩ := h
      rfl

theorem allocDays_keys (fuel : Nat) (daily : ℚ) :
    ∀ (ds : List Nat) (rem remF : PyDict) (rows : List Row),
      allocDays fuel daily ds rem = some (remF, rows) →
      dictKeys remF = dictKeys rem := by
  intro ds
  induction ds with
  | nil =>
    intro rem remF rows h
    simp only [allocDays, Option.some.injEq, Prod.mk.injEq] at h
    obtain ⟨rfl, -⟩ := h
    rfl
  | cons day ds ih =>
    intro rem remF rows h
    simp only [allocDays] at h
    cases hloop : dayLoop day fuel rem daily [] with
    | none => rw [hloop] at h; exact absurd h (by simp)
    | some p =>
      rcases p with ⟨rem₁, hl₁, dayRows⟩
      simp only [hloop] at h
      cases hrest : allocDays fuel daily ds rem₁ with
      | none =>
        simp only [hrest] at h
        exact absurd h (by simp)
      | some q =>
        rcases q with ⟨remF', rest⟩
        simp only [hrest] at h
        simp only [Option.some.injEq, Prod.mk.injEq] at h
        obtain ⟨rfl, -⟩ := h
        rw [ih rem₁ remF' rest hrest]
        exact dayLoop_keys day fuel rem daily [] rem₁ hl₁ dayRows hloop

theorem rowsSum_append (a b : List Row) :
    rowsSum (a ++ b) = rowsSum a + rowsSum b := by
  simp [rowsSum]

theorem dateSum_append (a b : List Row) (d : Nat) :
    dateSum (a ++ b) d = dateSum a d + dateSum b d := by
  simp [dateSum, List.filter_append]

theorem dateSum_eq_rowsSum {rows : List Row} {d : Nat}
    (h : ∀ r ∈ rows, r.date = d) : dateSum rows d = rowsSum rows := by
  unfold dateSum rowsSum
  congr 1
  rw [List.filter_eq_self.mpr]
  intro r hr
  simpa using h r hr

theorem dateSum_eq_zero {rows : List Row} {d : Nat}
    (h : ∀ r ∈ rows, r.date ≠ d) : dateSum rows d = 0 := by
  unfold dateSum
  rw [List.filter_eq_nil.mpr]
  · rfl
  · intro r hr
    simpa using h r hr

/-- On the quarter-hour grid the loop hands out at most `hours_left` in
total: the rounding of line 112 is exact there, so no step can overshoot. -/
theorem dayLoop_sum_grid (day : Nat) :
    ∀ (fuel : Nat) (rem : PyDict) (hl : ℚ) (rows : List Row)
      (rem' : PyDict) (hl' : ℚ) (rows' : List Row),
      dayLoop day fuel rem hl rows = some (rem', hl', rows') →
      IsQuarter hl → 0 ≤ hl →
      rowsSum rows' ≤ rowsSum rows + hl := by
  intro fuel
  induction fuel with
  | zero =>
    intro rem hl rows rem' hl' rows' h hq hnn
    unfold dayLoop at h
    split at h
    · exact absurd h (by simp)
    · simp only [Option.some.injEq, Prod.mk.injEq] at h
      obtain ⟨-, -, rfl⟩ := h
      linarith
  | succ n ih =>
    intro rem hl rows rem' hl' rows' h hq hnn
    unfold dayLoop at h
    split at h
    · rcases dayStep_spec day rem hl rows with hs |
        ⟨topic, remT, hmax, hpos, hrem, hhl, hrows⟩
      · rw [hs] at h
        simp only [Option.some.injEq, Prod.mk.injEq] at h
        obtain ⟨-, -, rfl⟩ := h
        linarith
      · have halloc_le : allocAmount remT hl ≤ hl := by
          have h1 : allocAmount remT hl ≤ roundTo4 hl :=
            roundTo4_mono (min_le_right remT hl)
          rw [roundTo4_eq_of_isQuarter hq] at h1
          exact h1
        cases hstep : dayStep day rem hl rows with
        | stop rem₁ hl₁ rows₁ =>
          rw [hstep] at h
          rw [hstep] at hrows
          simp only [StepResult.rowsAcc] at hrows
          simp only [Option.some.injEq, Prod.mk.injEq] at h
          obtain ⟨-, -, rfl⟩ := h
          rw [hrows, rowsSum_append]
          have : rowsSum [⟨day, topic, allocAmount remT hl⟩] =
              allocAmount remT hl := by simp [rowsSum]
          rw [this]
          linarith
        | go rem₁ hl₁ rows₁ =>
          rw [hstep] at h
          rw [hstep] at hrows
          rw [hstep] at hhl
          simp only [StepResult.rowsAcc] at hrows
          simp only [StepResult.hoursLeft] at hhl
          have hq' : IsQuarter (hl - allocAmount remT hl) :=
            isQuarter_sub hq (roundTo4_isQuarter _)
          have hhl₁ : hl₁ = hl - allocAmount remT hl := by
            rw [hhl, roundTo4_eq_of_isQuarter hq']
          have hnn₁ : 0 ≤ hl₁ := by rw [hhl₁]; linarith
          have hq₁ : IsQuarter hl₁ := hhl₁ ▸ hq'
          have hle := ih rem₁ hl₁ rows₁ rem' hl' rows' h hq₁ hnn₁
          rw [hrows, rowsSum_append] at hle
          have : rowsSum [⟨day, topic, allocAmount remT hl⟩] =
              allocAmount remT hl := by simp [rowsSum]
          rw [this, hhl₁] at hle
          linarith
    · simp only [Option.some.injEq, Prod.mk.injEq] at h
      obtain ⟨-, -, rfl⟩ := h
      linarith

/-- Entering a day with arbitrary `hours_left ≥ 0`, the loop hands out at
most `hours_left + 1/8` in total: only the first rounding can overshoot. -/
theorem dayLoop_sum (day : Nat) (fuel : Nat) (rem : PyDict) (hl : ℚ)
    (rows : List Row) (rem' : PyDict) (hl' : ℚ) (rows' : List Row)
    (h : dayLoop day fuel rem hl rows = some (rem', hl', rows'))
    (hnn : 0 ≤ hl) :
    rowsSum rows' ≤ rowsSum rows + hl + 1/8 := by
  unfold dayLoop at h
  split at h
  · cases fuel with
    | zero => exact absurd h (by simp)
    | succ n =>
      rcases dayStep_spec day rem hl rows with hs |
        ⟨topic, remT, hmax, hpos, hrem, hhl, hrows⟩
      · rw [hs] at h
        simp only [Option.some.injEq, Prod.mk.injEq] at h
        obtain ⟨-, -, rfl⟩ := h
        linarith
      · have halloc_le : allocAmount remT hl ≤ hl + 1/8 := by
          have h1 : allocAmount remT hl ≤ roundTo4 hl :=
            roundTo4_mono (min_le_right remT hl)
          have h2 := roundTo4_le hl
          linarith
        cases hstep : dayStep day rem hl rows with
        | stop rem₁ hl₁ rows₁ =>
          rw [hstep] at h
          rw [hstep] at hrows
          simp only [StepResult.rowsAcc] at hrows
          simp only [Option.some.injEq, Prod.mk.injEq] at h
          obtain ⟨-, -, rfl⟩ := h
          rw [hrows, rowsSum_append]
          have : rowsSum [⟨day, topic, allocAmount remT hl⟩] =
              allocAmount remT hl := by simp [rowsSum]
          rw [this]
          linarith
        | go rem₁ hl₁ rows₁ =>
          rw [hstep] at h
          rw [hstep] at hrows
          rw [hstep] at hhl
          simp only [StepResult.rowsAcc] at hrows
          simp only [StepResult.hoursLeft] at hhl
          have hq₁ : IsQuarter hl₁ := hhl ▸ roundTo4_isQuarter _
          have hnn₁ : 0 ≤ hl₁ := by
            rw [hhl]
            apply roundTo4_nonneg
            linarith
          have hhl₁_le : hl₁ ≤ hl - allocAmount remT hl + 1/8 := by
            rw [hhl]
            exact roundTo4_le _
          have hle := dayLoop_sum_grid day n rem₁ hl₁ rows₁ rem' hl' rows'
            h hq₁ hnn₁
          rw [hrows, rowsSum_append] at hle
          have : rowsSum [⟨day, topic, allocAmount remT hl⟩] =
              allocAmount remT hl := by simp [rowsSum]
          rw [this] at hle
          linarith
  · simp only [Option.some.injEq, Prod.mk.injEq] at h
    obtain ⟨-, -, rfl⟩ := h
    linarith

/-- Every row emitted over the window carries one of the window's dates and
a positive quarter-multiple of hours. -/
theorem allocDays_rows (fuel : Nat) (daily : ℚ) :
    ∀ (ds : List Nat) (rem remF : PyDict) (rows : List Row),
      allocDays fuel daily ds rem = some (remF, rows) →
      ∀ r ∈ rows, r.date ∈ ds ∧ 0 < r.hours ∧ IsQuarter r.hours := by
  intro ds
  induction ds with
  | nil =>
    intro rem remF rows h
    simp only [allocDays, Option.some.injEq, Prod.mk.injEq] at h
    obtain ⟨-, rfl⟩ := h
    intro r hr
    exact absurd hr (List.not_mem_nil r)
  | cons day ds ih =>
    intro rem remF rows h
    simp only [allocDays] at h
    cases hloop : dayLoop day fuel rem daily [] with
    | none => rw [hloop] at h; exact absurd h (by simp)
    | some p =>
      rcases p with ⟨rem₁, hl₁, dayRows⟩
      simp only [hloop] at h
      cases hrest : allocDays fuel daily ds rem₁ with
      | none =>
        simp only [hrest] at h
        exact absurd h (by simp)
      | some q =>
        rcases q with ⟨remF', rest⟩
        simp only [hrest] at h
        simp only [Option.some.injEq, Prod.mk.injEq] at h
        obtain ⟨-, rfl⟩ := h
        intro r hr
        rcases List.mem_append.mp hr with hr1 | hr2
        · obtain ⟨ext, hext, hprops⟩ :=
            dayLoop_rows day fuel rem daily [] rem₁ hl₁ dayRows hloop
          rw [hext] at hr1
          simp only [List.nil_append] at hr1
          obtain ⟨hd, hp, hq⟩ := hprops r hr1
          exact ⟨by rw [hd]; exact List.mem_cons_self _ _, hp, hq⟩
        · obtain ⟨hd, hp, hq⟩ := ih rem₁ remF' rest hrest r hr2
          exact ⟨List.mem_cons_of_mem _ hd, hp, hq⟩

/-- Per-date capacity over the whole run: with distinct dates, each date's
total is at most `daily_hours + 1/8`. -/
theorem allocDays_dateSum (fuel : Nat) (daily : ℚ) (hd : 0 ≤ daily) :
    ∀ (ds : List Nat) (rem remF : PyDict) (rows : List Row),
      allocDays fuel daily ds rem = some (remF, rows) →
      ds.Nodup → ∀ d, dateSum rows d ≤ daily + 1/8 := by
  intro ds
  induction ds with
  | nil =>
    intro rem remF rows h _ d
    simp only [allocDays, Option.some.injEq, Prod.mk.injEq] at h
    obtain ⟨-, rfl⟩ := h
    simp [dateSum]
    linarith
  | cons day ds ih =>
    intro rem remF rows h hnd d
    simp only [List.nodup_cons] at hnd
    simp only [allocDays] at h
    cases hloop : dayLoop day fuel rem daily [] with
    | none => rw [hloop] at h; exact absurd h (by simp)
    | some p =>
      rcases p with ⟨rem₁, hl₁, dayRows⟩
      simp only [hloop] at h
      cases hrest : allocDays fuel daily ds rem₁ with
      | none =>
        simp only [hrest] at h
        exact absurd h (by simp)
      | some q =>
        rcases q with ⟨remF', rest⟩
        simp only [hrest] at h
        simp only [Option.some.injEq, Prod.mk.injEq] at h
        obtain ⟨-, rfl⟩ := h
        rw [dateSum_append]
        obtain ⟨ext, hext, hprops⟩ :=
          dayLoop_rows day fuel rem daily [] rem₁ hl₁ dayRows hloop
        rw [List.nil_append] at hext
        by_cases hcase : d = day
        · have h1 : dateSum dayRows d = rowsSum dayRows := by
            apply dateSum_eq_rowsSum
            intro r hr
            rw [hcase]
            exact (hprops r (hext ▸ hr)).1
          have h2 : rowsSum dayRows ≤ daily + 1/8 := by
            have := dayLoop_sum day fuel rem daily [] rem₁ hl₁ dayRows hloop hd
            simpa [rowsSum] using this
          have h3 : dateSum rest d = 0 := by
            apply dateSum_eq_zero
            intro r hr he
            have hmem := (allocDays_rows fuel daily ds rem₁ remF' rest hrest r hr).1
            rw [he, hcase] at hmem
            exact hnd.1 hmem
          linarith
        · have h1 : dateSum dayRows d = 0 := by
            apply dateSum_eq_zero
            intro r hr he
            have := (hprops r (hext ▸ hr)).1
            rw [this] at he
            exact hcase he.symm
          have h2 := ih rem₁ remF' rest hrest hnd.2 d
          linarith

/-- With at least one topic (all entries ≥ 1/2, as produced by the 0.5
floor) and `daily_hours ≥ 1/4`, the very first day emits at least one row. -/
theorem allocDays_emits (fuel : Nat) (daily : ℚ) (hdaily : 1/4 ≤ daily) :
    ∀ (day : Nat) (ds : List Nat) (rem remF : PyDict) (rows : List Row),
      allocDays fuel daily (day :: ds) rem = some (remF, rows) →
      rem ≠ [] → (∀ p ∈ rem, 1/2 ≤ p.2) → rows ≠ [] := by
  intro day ds rem remF rows h hne hval
  simp only [allocDays] at h
  cases hloop : dayLoop day fuel rem daily [] with
  | none => rw [hloop] at h; exact absurd h (by simp)
  | some p =>
    rcases p with ⟨rem₁, hl₁, dayRows⟩
    simp only [hloop] at h
    cases hrest : allocDays fuel daily ds rem₁ with
    | none =>
      simp only [hrest] at h
      exact absurd h (by simp)
    | some q =>
      rcases q with ⟨remF', rest⟩
      simp only [hrest] at h
      simp only [Option.some.injEq, Prod.mk.injEq] at h
      obtain ⟨-, rfl⟩ := h
      suffices hday : dayRows ≠ [] by
        intro hcontra
        exact hday (List.append_eq_nil.mp hcontra).1
      -- the guard holds on entry, so the loop must take at least one step
      have hcond : innerCond rem daily := by
        refine ⟨hdaily, ?_⟩
        match rem, hne with
        | p :: rem', _ =>
          exact ⟨p, List.mem_cons_self _ _, by
            have := hval p (List.mem_cons_self _ _)
            norm_num
            linarith⟩
      unfold dayLoop at hloop
      rw [if_pos hcond] at hloop
      cases fuel with
      | zero => exact absurd hloop (by simp)
      | succ n =>
        rcases dayStep_spec day rem daily [] with hs |
          ⟨topic, remT, hmax, hpos, hrem₂, hhl₂, hrows₂⟩
        · -- a no-op stop is impossible: the maximal entry is ≥ 1/2
          exfalso
          unfold dayStep at hs
          cases hmax : pyMaxSnd rem with
          | none =>
            have hsome := pyMaxSnd_isSome (m := rem) hne
            rw [hmax] at hsome
            exact absurd hsome (by simp)
          | some p2 =>
            rcases p2 with ⟨topic, remT⟩
            rw [hmax] at hs
            simp only at hs
            have hremT : 1/2 ≤ remT := hval _ (pyMaxSnd_mem hmax)
            have h1 : ¬ (remT < 1/4) := by intro hlt; linarith
            rw [if_neg h1] at hs
            have h2 : ¬ (allocAmount remT daily ≤ 0) := by
              intro hle
              have : roundTo4 (1/4) ≤ allocAmount remT daily := by
                apply roundTo4_mono
                exact le_min (by linarith) hdaily
              rw [roundTo4_eq_of_isQuarter ⟨1, by norm_num⟩] at this
              linarith
            rw [if_neg h2] at hs
            split_ifs at hs
            injection hs with h_1 h_2 h_3
            exact absurd h_3 (by simp)
        · cases hstep : dayStep day rem daily [] with
          | stop rem₂ hl₂ rows₂ =>
            rw [hstep] at hloop hrows₂
            simp only [StepResult.rowsAcc] at hrows₂
            simp only [Option.some.injEq, Prod.mk.injEq] at hloop
            obtain ⟨-, -, rfl⟩ := hloop
            rw [hrows₂]
            simp
          | go rem₂ hl₂ rows₂ =>
            rw [hstep] at hloop hrows₂
            simp only [StepResult.rowsAcc] at hrows₂
            obtain ⟨ext, hext, -⟩ :=
              dayLoop_rows day n rem₂ hl₂ rows₂ rem₁ hl₁ dayRows hloop
            rw [hext, hrows₂]
            simp

theorem buildStudyDays_pairwise (today examDate : Nat) (iw : Bool) :
    (buildStudyDays today examDate iw).Pairwise (· < ·) := by
  unfold buildStudyDays
  apply List.Pairwise.filter
  apply List.Pairwise.map
  · intro a b hab
    exact Nat.add_lt_add_left hab today
  · exact List.pairwise_lt_range _

theorem buildStudyDays_nodup (today examDate : Nat) (iw : Bool) :
    (buildStudyDays today examDate iw).Nodup :=
  (buildStudyDays_pairwise today examDate iw).imp Nat.ne_of_lt

theorem sum_map_zero (K : List (Nat × String)) :
    (K.map fun _ => (0 : ℚ)).sum = 0 := by
  induction K with
  | nil => rfl
  | cons k ks ih => simp [ih]

theorem sum_map_add (K : List (Nat × String)) (f g : Nat × String → ℚ) :
    (K.map fun k => f k + g k).sum = (K.map f).sum + (K.map g).sum := by
  induction K with
  | nil => simp
  | cons k ks ih =>
    simp only [List.map_cons, List.sum_cons, ih]
    ring

theorem sum_ite_key (k₀ : Nat × String) (h : ℚ) :
    ∀ K : List (Nat × String), K.Nodup →
      (K.map fun k => if k₀ = k then h else 0).sum =
        if k₀ ∈ K then h else 0 := by
  intro K
  induction K with
  | nil => simp
  | cons k ks ih =>
    intro hnd
    simp only [List.nodup_cons] at hnd
    simp only [List.map_cons, List.sum_cons]
    by_cases hk : k₀ = k
    · subst hk
      rw [if_pos rfl, if_pos (List.mem_cons_self _ _), ih hnd.2,
        if_neg hnd.1]
      ring
    · rw [if_neg hk, ih hnd.2]
      by_cases hmem : k₀ ∈ ks
      · rw [if_pos hmem, if_pos (List.mem_cons_of_mem _ hmem)]
        ring
      · rw [if_neg hmem, if_neg (by
          intro hc
          rcases List.mem_cons.mp hc with hc | hc
          · exact hk hc
          · exact hmem hc)]
        ring

/-- Partitioning a row sum over a duplicate-free key list. -/
theorem sum_over_keys (K : List (Nat × String)) (hK : K.Nodup) :
    ∀ rows : List Row,
      (K.map fun k =>
          ((rows.filter fun r => rowKey r = k).map Row.hours).sum).sum =
        ((rows.filter fun r => rowKey r ∈ K).map Row.hours).sum := by
  intro rows
  induction rows with
  | nil =>
    simp only [List.filter_nil, List.map_nil, List.sum_nil]
    exact sum_map_zero K
  | cons r rest ih =>
    have hpoint : ∀ k ∈ K,
        ((((r :: rest).filter fun r' => rowKey r' = k).map Row.hours).sum) =
          (if rowKey r = k then r.hours else 0) +
            ((rest.filter fun r' => rowKey r' = k).map Row.hours).sum := by
      intro k _
      by_cases hk : rowKey r = k
      · simp [List.filter_cons, hk]
      · simp [List.filter_cons, hk]
    rw [List.map_congr_left hpoint, sum_map_add, sum_ite_key _ _ K hK, ih]
    by_cases hmem : rowKey r ∈ K
    · simp [List.filter_cons, hmem]
    · simp [List.filter_cons, hmem]

/-! ## The pandas aggregation step -/

theorem insertKey_perm (k : Nat × String) (l : List (Nat × String)) :
    List.Perm (insertKey k l) (k :: l) := by
  induction l with
  | nil => exact List.Perm.refl _
  | cons x xs ih =>
    unfold insertKey
    split
    · exact List.Perm.refl _
    · exact ((ih.cons x).trans (List.Perm.swap k x xs))

theorem sortKeys_perm (l : List (Nat × String)) :
    List.Perm (sortKeys l) l := by
  induction l with
  | nil => exact List.Perm.refl _
  | cons k ks ih => exact (insertKey_perm k (sortKeys ks)).trans (ih.cons k)

theorem insertKey_eq_cons {k : Nat × String} {l : List (Nat × String)}
    (h : ∀ x ∈ l, keyLE k x) : insertKey k l = k :: l := by
  cases l with
  | nil => rfl
  | cons x xs =>
    unfold insertKey
    rw [if_pos (h x (List.mem_cons_self x xs))]

theorem sortKeys_eq_of_sorted :
    ∀ {l : List (Nat × String)}, l.Pairwise keyLE → sortKeys l = l := by
  intro l
  induction l with
  | nil => intro _; rfl
  | cons k ks ih =>
    intro hp
    rw [List.pairwise_cons] at hp
    show insertKey k (sortKeys ks) = k :: ks
    rw [ih hp.2]
    exact insertKey_eq_cons hp.1

/-- Aggregation redistributes hours between rows of equal `(Date, Topic)`
keys but leaves every per-date total unchanged. -/
theorem aggregate_dateSum (rows : List Row) (d : Nat) :
    dateSum (aggregate rows) d = dateSum rows d := by
  unfold aggregate dateSum
  rw [List.map_filter, List.map_map]
  have hK : (sortKeys ((rows.map rowKey).dedup)).Nodup :=
    ((sortKeys_perm _).nodup_iff).mpr (List.nodup_dedup _)
  have hK' : ((sortKeys ((rows.map rowKey).dedup)).filter
      (fun k => decide (k.1 = d))).Nodup := hK.filter _
  have hsum := sum_over_keys _ hK' rows
  have hfil : rows.filter (fun r => decide (rowKey r ∈
        ((sortKeys ((rows.map rowKey).dedup)).filter
          (fun k => decide (k.1 = d))))) =
      rows.filter (fun r => decide (r.date = d)) := by
    apply List.filter_congr
    intro r hr
    have hmemK : rowKey r ∈ sortKeys ((rows.map rowKey).dedup) := by
      rw [(sortKeys_perm _).mem_iff, List.mem_dedup]
      exact List.mem_map_of_mem rowKey hr
    simp only [decide_eq_decide]
    constructor
    · intro hc
      exact decide_eq_true_eq.mp (List.mem_filter.mp hc).2
    · intro hd2
      exact List.mem_filter.mpr ⟨hmemK, decide_eq_true_eq.mpr hd2⟩
  exact hsum.trans (by rw [hfil])

theorem dateSum_cons (r : Row) (rest : List Row) (d : Nat) :
    dateSum (r :: rest) d =
      (if r.date = d then r.hours else 0) + dateSum rest d := by
  unfold dateSum
  rw [List.filter_cons]
  by_cases hdate : r.date = d
  · rw [if_pos (by simpa using hdate), if_pos hdate]
    simp
  · rw [if_neg (by simpa using hdate), if_neg hdate]
    simp

theorem dateSum_le_of_nodup_dates (daily : ℚ) (hd : 0 ≤ daily) :
    ∀ (rows : List Row), (rows.map Row.date).Nodup →
      (∀ r ∈ rows, r.hours = daily) → ∀ d, dateSum rows d ≤ daily := by
  intro rows
  induction rows with
  | nil =>
    intro _ _ d
    simp [dateSum]
    linarith
  | cons r rest ih =>
    intro hnd hh d
    simp only [List.map_cons, List.nodup_cons] at hnd
    rw [dateSum_cons]
    by_cases hdate : r.date = d
    · rw [if_pos hdate]
      have hzero : dateSum rest d = 0 := by
        apply dateSum_eq_zero
        intro r' hr' he
        rw [← hdate] at he
        exact hnd.1 (he ▸ List.mem_map_of_mem Row.date hr')
      rw [hzero, hh r (List.mem_cons_self r rest)]
      linarith
    · rw [if_neg hdate]
      have := ih hnd.2 (fun r' hr' => hh r' (List.mem_cons_of_mem r hr')) d
      linarith

theorem fallbackRows_dates (days : List Nat) (names : List String)
    (daily : ℚ) : (fallbackRowsOf days names daily).map Row.date = days := by
  unfold fallbackRowsOf
  rw [List.map_map]
  exact List.enum_map_snd days

theorem fallbackRows_hours (days : List Nat) (names : List String)
    (daily : ℚ) : ∀ r ∈ fallbackRowsOf days names daily, r.hours = daily := by
  intro r hr
  unfold fallbackRowsOf at hr
  obtain ⟨p, -, rfl⟩ := List.mem_map.mp hr
  rfl

/-- Claim C3 (confirmed).  For every successful run with positive
`daily_hours`, the hours assigned on any one date in the output total at most
`daily_hours + 0.25` — on the greedy path the slack is in fact at most 1/8
(one rounding), and on the fallback path the daily total is exactly
`daily_hours`. -/
theorem C3_daily_capacity (topics : List Topic) (examDate : Nat)
    (dailyHours : ℚ) (iw : Bool) (today : Nat) (res : SchedOut)
    (hd : 0 < dailyHours)
    (hok : generate_schedule topics examDate dailyHours iw today = .ok res) :
    ∀ d, dateSum res.df d ≤ dailyHours + 1/4 := by
  intro d
  obtain ⟨hne, remF, schedRows, hm, hrem, hbranch⟩ := generate_schedule_ok hok
  rcases hbranch with ⟨hempty, hnames, hsr, hdf⟩ | ⟨hne2, hsr, hdf⟩
  · rw [hdf, aggregate_dateSum]
    have := dateSum_le_of_nodup_dates dailyHours hd.le
      (fallbackRowsOf (buildStudyDays today examDate iw) (dictKeys remF)
        dailyHours)
      (by rw [fallbackRows_dates]; exact buildStudyDays_nodup _ _ _)
      (fallbackRows_hours _ _ _) d
    linarith
  · rw [hdf, aggregate_dateSum]
    have := allocDays_dateSum (dayFuel dailyHours) dailyHours hd.le
      (buildStudyDays today examDate iw) _ remF schedRows hm
      (buildStudyDays_nodup _ _ _) d
    linarith

/-- Witness for `C3_daily_capacity` at a concrete input (the C7 input: one
hard topic, two study days, 1.2 h/day). -/
theorem C3_daily_capacity_witness :
    dateSum (SchedOut.df ⟨[⟨0, "A", 5/4⟩, ⟨1, "A", 5/4⟩],
        [⟨0, "A", 5/4⟩, ⟨1, "A", 5/4⟩], [("A", 0)], 12/5⟩) 0 ≤ 6/5 + 1/4 := by
  apply C3_daily_capacity [⟨"A", 3, false⟩] 2 (6/5) true 0 _ (by norm_num)
    _ 0
  have r1 : pyRound (24/5 : ℚ) = 5 :=
    pyRound_eq_of_bounds (by norm_num) (by norm_num)
  have r2 : pyRound (5 : ℚ) = 5 := by exact_mod_cast pyRound_intCast 5
  have r3 : pyRound (-(1/5) : ℚ) = 0 :=
    pyRound_eq_of_bounds (by norm_num) (by norm_num)
  have r4 : pyRound (0 : ℚ) = 0 := by exact_mod_cast pyRound_intCast 0
  norm_num [generate_schedule, buildStudyDays, List.range_succ, dayFuel,
    initRemaining, weightSum, weight, entitlement, roundTo2, roundTo4,
    allocDays, dayLoop, dayStep, innerCond, allocAmount, min_def,
    dictSet, dictGet, dictKeys, pyMaxSnd, aggregate, rowKey, sortKeys,
    insertKey, keyLE, List.dedup_cons_of_mem, List.dedup_cons_of_not_mem,
    List.dedup_nil, r1, r2, r3, r4]
  intro h
  exact absurd h (by simp)

theorem list_sum_quarter :
    ∀ (l : List ℚ), (∀ x ∈ l, IsQuarter x) → IsQuarter l.sum := by
  intro l
  induction l with
  | nil =>
    intro _
    exact ⟨0, by norm_num⟩
  | cons x xs ih =>
    intro h
    rw [List.sum_cons]
    exact isQuarter_add (h x (List.mem_cons_self x xs))
      (ih (fun y hy => h y (List.mem_cons_of_mem x hy)))

/-- Aggregated rows inherit positivity and quarter-granularity: each output
row sums a nonempty set of emitted rows for its key. -/
theorem aggregate_hours (rows : List Row)
    (h : ∀ r ∈ rows, 0 < r.hours ∧ IsQuarter r.hours) :
    ∀ r ∈ aggregate rows, 0 < r.hours ∧ IsQuarter r.hours := by
  intro r hr
  unfold aggregate at hr
  obtain ⟨k, hk, rfl⟩ := List.mem_map.mp hr
  have hkmem : k ∈ rows.map rowKey :=
    List.mem_dedup.mp ((sortKeys_perm _).mem_iff.mp hk)
  obtain ⟨r₀, hr₀, hkey⟩ := List.mem_map.mp hkmem
  have hfil : r₀ ∈ rows.filter (fun r' => decide (rowKey r' = k)) :=
    List.mem_filter.mpr ⟨hr₀, by simp [hkey]⟩
  constructor
  · apply List.sum_pos
    · intro x hx
      obtain ⟨r', hr', rfl⟩ := List.mem_map.mp hx
      exact (h r' (List.mem_of_mem_filter hr')).1
    · exact List.ne_nil_of_mem (List.mem_map_of_mem Row.hours hfil)
  · apply list_sum_quarter
    intro x hx
    obtain ⟨r', hr', rfl⟩ := List.mem_map.mp hx
    exact (h r' (List.mem_of_mem_filter hr')).2

/-- Claim C4 (corrected: `daily_hours` must be at least a quarter hour).
Then the fallback cannot fire with a nonempty topic list — the first day
always emits — and every output Hours value is a positive multiple of
0.25. -/
theorem C4_hours_positive_quarters (topics : List Topic) (examDate : Nat)
    (dailyHours : ℚ) (iw : Bool) (today : Nat) (res : SchedOut)
    (hd : 1/4 ≤ dailyHours)
    (hok : generate_schedule topics examDate dailyHours iw today = .ok res) :
    ∀ r ∈ res.df, 0 < r.hours ∧ IsQuarter r.hours := by
  obtain ⟨hne, remF, schedRows, hm, hrem, hbranch⟩ := generate_schedule_ok hok
  rcases hbranch with ⟨hempty, hnames, -, hdf⟩ | ⟨-, -, hdf⟩
  · -- the fallback branch is impossible when daily_hours ≥ 1/4
    exfalso
    have hkeys := allocDays_keys (dayFuel dailyHours) dailyHours
      (buildStudyDays today examDate iw) _ remF schedRows hm
    have hrem0_ne : initRemaining topics (weightSum topics)
        (((buildStudyDays today examDate iw).length : ℚ) * dailyHours) ≠ [] := by
      intro hc
      apply hnames
      rw [hkeys, hc]
      rfl
    obtain ⟨day, ds, hds⟩ := List.exists_cons_of_ne_nil hne
    rw [hds] at hm hrem0_ne
    exact allocDays_emits (dayFuel dailyHours) dailyHours hd day ds _ remF
      schedRows hm hrem0_ne
      (initRemaining_values_ge_half _ _ _) hempty
  · rw [hdf]
    apply aggregate_hours
    intro r hr
    exact (allocDays_rows (dayFuel dailyHours) dailyHours
      (buildStudyDays today examDate iw) _ remF schedRows hm r hr).2

/-- Witness for `C4_hours_positive_quarters` at a concrete input (one hard
topic, two study days, 1.2 h/day). -/
theorem C4_hours_positive_quarters_witness :
    0 < (Row.mk 0 "A" (5/4)).hours ∧ IsQuarter (Row.mk 0 "A" (5/4)).hours := by
  apply C4_hours_positive_quarters [⟨"A", 3, false⟩] 2 (6/5) true 0
    (SchedOut.mk [⟨0, "A", 5/4⟩, ⟨1, "A", 5/4⟩]
      [⟨0, "A", 5/4⟩, ⟨1, "A", 5/4⟩] [("A", 0)] (12/5))
    (by norm_num) ?_ (Row.mk 0 "A" (5/4)) (List.mem_cons_self _ _)
  have r1 : pyRound (24/5 : ℚ) = 5 :=
    pyRound_eq_of_bounds (by norm_num) (by norm_num)
  have r2 : pyRound (5 : ℚ) = 5 := by exact_mod_cast pyRound_intCast 5
  have r3 : pyRound (-(1/5) : ℚ) = 0 :=
    pyRound_eq_of_bounds (by norm_num) (by norm_num)
  have r4 : pyRound (0 : ℚ) = 0 := by exact_mod_cast pyRound_intCast 0
  norm_num [generate_schedule, buildStudyDays, List.range_succ, dayFuel,
    initRemaining, weightSum, weight, entitlement, roundTo2, roundTo4,
    allocDays, dayLoop, dayStep, innerCond, allocAmount, min_def,
    dictSet, dictGet, dictKeys, pyMaxSnd, aggregate, rowKey, sortKeys,
    insertKey, keyLE, List.dedup_cons_of_mem, List.dedup_cons_of_not_mem,
    List.dedup_nil, r1, r2, r3, r4]
  intro h
  exact absurd h (by simp)

/-- Counterexample to claim C4 as stated.  `daily_hours = 0.1` is positive,
the topic list and window are non-empty, yet the run succeeds via the
fallback and the single output row carries `Hours = 1/10`, which is not a
multiple of 0.25.  (Checked against the float run of the source:
identical.) -/
theorem C4_counterexample :
    generate_schedule [⟨"A", 2, false⟩] 1 (1/10) true 0 =
      .ok ⟨[⟨0, "A", 1/10⟩], [], [("A", 1/2)], 1/10⟩ ∧
    (0 : ℚ) < 1/10 ∧ ¬ IsQuarter (1/10 : ℚ) := by
  refine ⟨?_, by norm_num, ?_⟩
  · have r1 : pyRound (1/5 : ℚ) = 0 :=
      pyRound_eq_of_bounds (by norm_num) (by norm_num)
    norm_num [generate_schedule, buildStudyDays, List.range_succ, dayFuel,
      initRemaining, weightSum, weight, entitlement, roundTo2, roundTo4,
      allocDays, dayLoop, dayStep, innerCond, allocAmount, min_def,
      dictSet, dictGet, dictKeys, pyMaxSnd, aggregate, rowKey, sortKeys,
      insertKey, keyLE, fallbackRowsOf, List.dedup_cons_of_mem,
      List.dedup_cons_of_not_mem, List.dedup_nil, r1]
  · rintro ⟨k, hk⟩
    have h5 : (5 : ℚ) * k = 2 := by linarith
    have h5' : (5 : ℤ) * k = 2 := by exact_mod_cast h5
    omega

/-! ## C5: fallback guarantee -/

theorem weightSum_pos {topics : List Topic} (hne : topics ≠ [])
    (hdiff : ∀ t ∈ topics, 1 ≤ t.difficulty) : 0 < weightSum topics := by
  obtain ⟨t, ts, rfl⟩ := List.exists_cons_of_ne_nil hne
  rw [weightSum_cons]
  have h1 : (1 : ℚ) ≤ weight t := by
    unfold weight
    have : (1 : ℚ) ≤ (t.difficulty : ℚ) := by
      exact_mod_cast hdiff t (List.mem_cons_self t ts)
    split <;> nlinarith
  have h2 : 0 ≤ weightSum ts := by
    apply List.sum_nonneg
    intro x hx
    obtain ⟨u, -, rfl⟩ := List.mem_map.mp hx
    exact weight_nonneg u
  linarith

theorem dictKeys_initRemaining (topics : List Topic) (sumW total : ℚ)
    (hnd : (topics.map Topic.name).Nodup) :
    dictKeys (initRemaining topics sumW total) = topics.map Topic.name := by
  unfold initRemaining
  suffices hgen : ∀ (ts : List Topic) (m : PyDict),
      (∀ t ∈ ts, t.name ∉ dictKeys m) → (ts.map Topic.name).Nodup →
      dictKeys (ts.foldl
        (fun m t => dictSet m t.name (entitlement (weight t) sumW total)) m) =
        dictKeys m ++ ts.map Topic.name by
    have := hgen topics [] (by simp [dictKeys]) hnd
    simpa [dictKeys] using this
  intro ts
  induction ts with
  | nil =>
    intro m _ _
    simp
  | cons u rest ih =>
    intro m hfresh hnd'
    simp only [List.map_cons, List.nodup_cons] at hnd'
    simp only [List.foldl_cons]
    rw [ih _ ?_ hnd'.2]
    · rw [dictKeys_dictSet_of_not_mem
        (hfresh u (List.mem_cons_self u rest)) _]
      simp
    · intro t ht hc
      rw [dictKeys_dictSet_of_not_mem
        (hfresh u (List.mem_cons_self u rest)) _] at hc
      rcases List.mem_append.mp hc with hc1 | hc2
      · exact hfresh t (List.mem_cons_of_mem u ht) hc1
      · simp only [List.mem_singleton] at hc2
        exact hnd'.1 (hc2 ▸ List.mem_map_of_mem Topic.name ht)

theorem filter_key_singleton :
    ∀ (rows : List Row), ((rows.map rowKey)).Nodup → ∀ r ∈ rows,
      rows.filter (fun r' => decide (rowKey r' = rowKey r)) = [r] := by
  intro rows
  induction rows with
  | nil =>
    intro _ r hr
    exact absurd hr (List.not_mem_nil r)
  | cons x rest ih =>
    intro hnd r hr
    simp only [List.map_cons, List.nodup_cons] at hnd
    rw [List.filter_cons]
    rcases List.mem_cons.mp hr with rfl | hr'
    · rw [if_pos (by simp)]
      congr 1
      apply List.filter_eq_nil.mpr
      intro r' hr' hc
      simp only [decide_eq_true_eq] at hc
      exact hnd.1 (hc ▸ List.mem_map_of_mem rowKey hr')
    · rw [if_neg (by
        simp only [decide_eq_true_eq]
        intro hc
        exact hnd.1 (hc ▸ List.mem_map_of_mem rowKey hr'))]
      exact ih hnd.2 r hr'

/-- When the `(Date, Topic)` keys are already distinct and sorted, the
pandas aggregation is the identity. -/
theorem aggregate_eq_self (rows : List Row)
    (hnd : (rows.map rowKey).Nodup)
    (hsort : (rows.map rowKey).Pairwise keyLE) :
    aggregate rows = rows := by
  unfold aggregate
  rw [List.dedup_eq_self.mpr hnd, sortKeys_eq_of_sorted hsort, List.map_map]
  have hpt : ∀ r ∈ rows, ((fun k : Nat × String =>
      (⟨k.1, k.2, ((rows.filter fun r' => rowKey r' = k).map
        Row.hours).sum⟩ : Row)) ∘ rowKey) r = id r := by
    intro r hr
    simp only [Function.comp, id]
    rw [filter_key_singleton rows hnd r hr]
    simp only [List.map_cons, List.map_nil, List.sum_cons, List.sum_nil,
      add_zero]
    rfl
  rw [List.map_eq_map_iff.mpr hpt, List.map_id]

theorem aggregate_ne_nil {rows : List Row} (h : rows ≠ []) :
    aggregate rows ≠ [] := by
  unfold aggregate
  intro hc
  apply h
  have hkeys : sortKeys ((rows.map rowKey).dedup) = [] :=
    List.map_eq_nil.mp hc
  have hded : (rows.map rowKey).dedup = [] := by
    have hperm := (sortKeys_perm ((rows.map rowKey).dedup)).symm
    rw [hkeys] at hperm
    exact hperm.eq_nil
  have hmap : rows.map rowKey = [] := (List.dedup_eq_nil _).mp hded
  exact List.map_eq_nil.mp hmap

theorem fallbackRows_keys_fst (days : List Nat) (names : List String)
    (daily : ℚ) :
    ((fallbackRowsOf days names daily).map rowKey).map Prod.fst = days := by
  unfold fallbackRowsOf
  rw [List.map_map, List.map_map]
  exact List.enum_map_snd days

theorem fallback_aggregate_id (days : List Nat) (names : List String)
    (daily : ℚ) (hp : days.Pairwise (· < ·)) :
    aggregate (fallbackRowsOf days names daily) =
      fallbackRowsOf days names daily := by
  have hpfst : (((fallbackRowsOf days names daily).map rowKey).map
      Prod.fst).Pairwise (· < ·) := by
    rw [fallbackRows_keys_fst]
    exact hp
  rw [List.pairwise_map] at hpfst
  apply aggregate_eq_self
  · exact hpfst.imp (fun hab he => absurd (congrArg Prod.fst he)
      (Nat.ne_of_lt hab))
  · exact hpfst.imp (fun hab => Or.inl hab)

theorem fallbackRows_length (days : List Nat) (names : List String)
    (daily : ℚ) : (fallbackRowsOf days names daily).length = days.length := by
  unfold fallbackRowsOf
  rw [List.length_map, List.enum_length]

theorem fallbackRows_getD (days : List Nat) (names : List String)
    (daily : ℚ) (i : Nat) (hi : i < days.length) :
    (fallbackRowsOf days names daily).getD i default =
      ⟨days.getD i 0, names.getD (i % names.length) "", daily⟩ := by
  unfold fallbackRowsOf
  rw [List.getD_eq_getElem?_getD, List.getElem?_map, List.getElem?_enum,
    List.getElem?_eq_getElem hi]
  rw [List.getD_eq_getElem?_getD, List.getElem?_eq_getElem hi]
  rfl

/-- Claim C5 (confirmed).  With at least one topic (difficulties ≥ 1, names
distinct) and at least one study day, `generate_schedule` succeeds and
returns a non-empty schedule; and if the greedy loop emitted no rows, the
output is exactly the round-robin fallback — one topic per day, cycling
through the topic list in order, each day receiving the full
`daily_hours`. -/
theorem C5_fallback_guarantee (topics : List Topic) (examDate : Nat)
    (dailyHours : ℚ) (iw : Bool) (today : Nat)
    (htop : topics ≠ [])
    (hdiff : ∀ t ∈ topics, 1 ≤ t.difficulty)
    (hnd : (topics.map Topic.name).Nodup)
    (hdays : buildStudyDays today examDate iw ≠ []) :
    ∃ res, generate_schedule topics examDate dailyHours iw today = .ok res ∧
      res.df ≠ [] ∧
      (res.scheduleRows = [] →
        res.df = fallbackRowsOf (buildStudyDays today examDate iw)
          (topics.map Topic.name) dailyHours ∧
        res.df.length = (buildStudyDays today examDate iw).length ∧
        ∀ i, i < (buildStudyDays today examDate iw).length →
          res.df.getD i default =
            ⟨(buildStudyDays today examDate iw).getD i 0,
             (topics.map Topic.name).getD (i % topics.length) "",
             dailyHours⟩) := by
  have h1 : ¬ (examDate ≤ today) := by
    intro hle
    apply hdays
    unfold buildStudyDays
    rw [Nat.sub_eq_zero_of_le hle]
    rfl
  have h2 : ¬ ((buildStudyDays today examDate iw).length = 0) := by
    simpa [List.length_eq_zero] using hdays
  have h3 : ¬ (topics ≠ [] ∧ weightSum topics = 0) := by
    rintro ⟨-, hzero⟩
    exact absurd hzero (ne_of_gt (weightSum_pos htop hdiff))
  obtain ⟨p, hm⟩ := Option.isSome_iff_exists.mp
    (allocDays_isSome dailyHours (buildStudyDays today examDate iw)
      (initRemaining topics (weightSum topics)
        (((buildStudyDays today examDate iw).length : ℚ) * dailyHours)))
  rcases p with ⟨remF, schedRows⟩
  have hkeys : dictKeys remF = topics.map Topic.name := by
    rw [allocDays_keys (dayFuel dailyHours) dailyHours
      (buildStudyDays today examDate iw) _ remF schedRows hm,
      dictKeys_initRemaining _ _ _ hnd]
  have hknil : dictKeys remF ≠ [] := by
    rw [hkeys]
    intro hc
    exact htop (List.map_eq_nil.mp hc)
  by_cases hcase : schedRows = []
  · refine ⟨⟨aggregate (fallbackRowsOf (buildStudyDays today examDate iw)
        (dictKeys remF) dailyHours), [], remF,
        ((buildStudyDays today examDate iw).length : ℚ) * dailyHours⟩,
        ?_, ?_, ?_⟩
    · simp only [generate_schedule]
      rw [if_neg h1, if_neg h2, if_neg h3]
      simp only [hm]
      rw [if_pos hcase, if_neg hknil]
    · simp only
      rw [fallback_aggregate_id _ _ _ (buildStudyDays_pairwise _ _ _)]
      intro hc
      apply h2
      rw [← fallbackRows_length (buildStudyDays today examDate iw)
        (dictKeys remF) dailyHours, hc]
      rfl
    · intro _
      simp only
      rw [fallback_aggregate_id _ _ _ (buildStudyDays_pairwise _ _ _), hkeys]
      refine ⟨rfl, fallbackRows_length _ _ _, ?_⟩
      intro i hi
      rw [fallbackRows_getD _ _ _ i hi, List.length_map]
  · refine ⟨⟨aggregate schedRows, schedRows, remF,
        ((buildStudyDays today examDate iw).length : ℚ) * dailyHours⟩,
        ?_, ?_, ?_⟩
    · simp only [generate_schedule]
      rw [if_neg h1, if_neg h2, if_neg h3]
      simp only [hm]
      rw [if_neg hcase]
    · exact aggregate_ne_nil hcase
    · intro hc
      exact absurd hc hcase

/-- Witness for `C5_fallback_guarantee` at a concrete input (one medium
topic, exam tomorrow, 3 h/day). -/
theorem C5_fallback_guarantee_witness :
    ∃ res, generate_schedule [⟨"A", 2, false⟩] 1 3 true 0 = .ok res ∧
      res.df ≠ [] ∧
      (res.scheduleRows = [] →
        res.df = fallbackRowsOf (buildStudyDays 0 1 true)
          (([⟨"A", 2, false⟩] : List Topic).map Topic.name) 3 ∧
        res.df.length = (buildStudyDays 0 1 true).length ∧
        ∀ i, i < (buildStudyDays 0 1 true).length →
          res.df.getD i default =
            ⟨(buildStudyDays 0 1 true).getD i 0,
             (([⟨"A", 2, false⟩] : List Topic).map Topic.name).getD
               (i % ([⟨"A", 2, false⟩] : List Topic).length) "", 3⟩) :=
  C5_fallback_guarantee [⟨"A", 2, false⟩] 1 3 true 0 (by simp)
    (by
      intro t ht
      simp only [List.mem_singleton] at ht
      rw [ht]
      norm_num)
    (by simp)
    (by norm_num [buildStudyDays, List.range_succ])
